import Mathlib

/-! # romanyx/wrap: method-set resolution and identifier synthesis

A shallow embedding of `wrap.go` (package `wrap`): the identifier synthesizer
(`variableForType`, `genName`), the parameter normalizer (`newParam`) and the
method-set resolver (`Parse`), together with the part of `go/types` that
`Parse` queries.

Conventions of the embedding.

* A Go `string` is a Lean `String`: a sequence of runes.  Every string the
  resolver handles is an identifier or a rendered type expression of a
  type-checked package, hence valid UTF-8, so ranging over it yields its runes.
* `unicode.ToLower` is a table of the Go standard library; the definitions take
  it as the parameter `toLower`.
* `strconv.Itoa` on a non-negative counter is `toString` on `Nat`.  The counter
  of `genName` is a Go `int`; it counts the names already tried, which is bounded
  by the number of used names, so it never reaches `2^63`.
* `map[string]bool` used as a set (`usedNames`, `methodCheck`) is the list of the
  keys set to `true`; only membership is ever observed.
* `Camelize` slices its argument at a byte offset, so its result is given as the
  list of its bytes; it need not be valid UTF-8.
-/

namespace Wrap

/-! ## Strings -/

/-- The first byte of the UTF-8 encoding of a rune: what `s[0]` reads when the
string `s` starts with that rune. -/
def utf8FirstByte (c : Char) : Nat :=
  let v := c.toNat
  if v < 0x80 then v
  else if v < 0x800 then 0xC0 + v / 0x40
  else if v < 0x10000 then 0xE0 + v / 0x1000
  else 0xF0 + v / 0x40000

/-- Go `unicode.IsLower` on the runes below `0x100` (the Latin-1 table of package
`unicode`): `a`-`z`, U+00B5, U+00DF-U+00F6 and U+00F8-U+00FF.  `isPrivate` only
ever passes a byte value. -/
def unicodeIsLowerLatin1 (r : Nat) : Bool :=
  (0x61 ≤ r && r ≤ 0x7A) || r == 0xB5 || (0xDF ≤ r && r ≤ 0xF6) || (0xF8 ≤ r && r ≤ 0xFF)

/-- Go `strings.Split(s, sep)` for a one-rune separator, on rune lists: the
pieces between the occurrences of `sep`; always at least one piece. -/
def splitRunes (sep : Char) : List Char → List (List Char)
  | [] => [[]]
  | c :: cs =>
    if c = sep then [] :: splitRunes sep cs
    else
      match splitRunes sep cs with
      | [] => [[c]]
      | p :: ps => (c :: p) :: ps

/-- Go `strings.Split(s, ".")`. -/
def stringsSplitDot (s : String) : List String :=
  (splitRunes '.' s.data).map String.mk

/-- Go `strings.ToLower`: `unicode.ToLower` mapped over the runes. -/
def stringsToLower (toLower : Char → Char) (s : String) : String :=
  String.mk (s.data.map toLower)

/-- The body `return string(v)` of a `for _, v := range s` loop: the first rune
of `s` as a string, or nothing when `s` is empty and the loop body never runs. -/
def firstRuneString (s : String) : Option String :=
  match s.data with
  | [] => none
  | v :: _ => some (String.singleton v)

/-! ## Identifier synthesizer -/

/-- Go `variableForType` (wrap.go 294-315). -/
def variableForType (toLower : Char → Char) (t : String) : String :=
  if t = "context.Context" then "ctx"
  else if t = "error" then "err"
  else
    let parts := stringsSplitDot t
    let fromLast : Option String :=
      if parts.length > 1 then
        firstRuneString (stringsToLower toLower (parts.getLastD ""))
      else none
    match fromLast with
    | some v => v
    | none =>
      match firstRuneString (stringsToLower toLower t) with
      | some v => v
      | none => "v"

/-- The name `genName` tries at one call: `variableForType t`, followed by the
decimal form of `n` when `n > 0` (wrap.go 282-285). -/
def genNameCandidate (toLower : Char → Char) (t : String) (n : Nat) : String :=
  if n > 0 then variableForType toLower t ++ toString n else variableForType toLower t

/-- Go `genName` (wrap.go 281-292) with a bound on the recursion depth: `none`
when the bound is reached before an unused name is found.  The recursive call
passes the name just tried, not `t`, as the source does. -/
def genNameFuel (toLower : Char → Char) : Nat → String → Nat → List String → Option String
  | 0, _, _, _ => none
  | fuel + 1, t, n, usedNames =>
    let pfx := genNameCandidate toLower t n
    if pfx ∈ usedNames then genNameFuel toLower fuel pfx (n + 1) usedNames
    else some pfx

/-- Go `genName`: the recursion run to depth `len(usedNames) + 2`, which
`genNameFuel_eq_genName` shows to be enough for every input. -/
def genName (toLower : Char → Char) (t : String) (n : Nat) (usedNames : List String) : String :=
  (genNameFuel toLower (usedNames.length + 2) t n usedNames).getD ""

/-! ## The type model queried by `Parse` (package `go/types`) -/

/-- A `*types.Package`: its name and its import path. -/
structure Package where
  Name : String
  Path : String
deriving DecidableEq, Repr

/-- A `types.Type`, for the type expressions built from basic and named types
with pointers, slices, arrays, maps, function signatures and interfaces with
explicit methods.  A named type carries the package of its declaration (none
for a universe type such as `error`) and its underlying type.  A tuple entry is
a variable name (empty when unnamed) and its type; an interface method is its
name, parameters, results and variadic flag. -/
inductive GoType where
  | basic (name : String)
  | named (pkg : Option Package) (name : String) (underlying : GoType)
  | pointer (base : GoType)
  | slice (elem : GoType)
  | array (len : Nat) (elem : GoType)
  | map (key : GoType) (elem : GoType)
  | signature (params : List (String × GoType)) (results : List (String × GoType))
      (variadic : Bool)
  | interface
      (methods : List (String × List (String × GoType) × List (String × GoType) × Bool))

/-- The package qualification `go/types` writes before a named type: the
qualifier's string followed by a dot, nothing when that string is empty. -/
def writePackage (qf : Package → String) : Option Package → String
  | none => ""
  | some pkg => if qf pkg = "" then "" else qf pkg ++ "."

/-- A variable name followed by a blank, nothing for an unnamed variable. -/
def writeName (name : String) : String :=
  if name = "" then "" else name ++ " "

mutual
/-- Go `types.TypeString(t, qf)`. -/
def typeString (qf : Package → String) : GoType → String
  | .basic name => name
  | .named pkg name _ => writePackage qf pkg ++ name
  | .pointer base => "*" ++ typeString qf base
  | .slice elem => "[]" ++ typeString qf elem
  | .array len elem => "[" ++ toString len ++ "]" ++ typeString qf elem
  | .map key elem => "map[" ++ typeString qf key ++ "]" ++ typeString qf elem
  | .signature params results variadic =>
    "func" ++ "(" ++ tupleString qf variadic params ++ ")" ++ resultsString qf results
  | .interface methods => "interface\x7b" ++ methodsString qf methods ++ "\x7d"
termination_by structural t => t
/-- The entries of a tuple separated by commas; the last entry of a variadic
tuple is written `...E` for its slice type `[]E`. -/
def tupleString (qf : Package → String) (variadic : Bool) : List (String × GoType) → String
  | [] => ""
  | (name, typ) :: rest =>
    writeName name ++
      (if variadic && rest.isEmpty then
        match typ with
        | .slice elem => "..." ++ typeString qf elem
        | other => typeString qf other ++ "..."
      else typeString qf typ) ++
      (if rest.isEmpty then "" else ", ") ++ tupleString qf variadic rest
termination_by structural l => l
/-- The results of a signature: nothing, a single unnamed type, or a
parenthesised tuple. -/
def resultsString (qf : Package → String) : List (String × GoType) → String
  | [] => ""
  | (name, typ) :: rest =>
    if name = "" && rest.isEmpty then " " ++ typeString qf typ
    else " (" ++ writeName name ++ typeString qf typ ++
      (if rest.isEmpty then "" else ", ") ++ tupleString qf false rest ++ ")"
termination_by structural l => l
/-- The explicit methods of an interface, separated by semicolons. -/
def methodsString (qf : Package → String) :
    List (String × List (String × GoType) × List (String × GoType) × Bool) → String
  | [] => ""
  | (name, params, results, variadic) :: rest =>
    name ++ "(" ++ tupleString qf variadic params ++ ")" ++ resultsString qf results ++
      (if rest.isEmpty then "" else "; ") ++ methodsString qf rest
termination_by structural l => l
end

/-- Go `t.String()`: `TypeString` with the nil qualifier, which writes the path
of the package. -/
def GoType.String (t : GoType) : String :=
  typeString (fun pkg => pkg.Path) t

/-- Go `t.Underlying()`. -/
def GoType.Underlying : GoType → GoType
  | .named _ _ underlying => underlying
  | t => t

/-- Go `types.IsInterface`. -/
def IsInterface (t : GoType) : Bool :=
  match t.Underlying with
  | .interface _ => true
  | _ => false

/-- A `*types.Var` of a signature: its name (empty when unnamed) and type. -/
structure Var where
  Name : String
  Typ : GoType

/-- One entry `mset.At(i)` of a method set: the name of the method and its
signature (parameters, results, variadic flag). -/
structure Selection where
  Name : String
  Params : List Var
  Results : List Var
  Variadic : Bool

/-- The object `Scope().Lookup(name)` finds: its type `tt`, with the method
sets `types.NewMethodSet(tt)` and `types.NewMethodSet(types.NewPointer(tt))` in
the order of `At(0), At(1), ...`. -/
structure Object where
  Typ : GoType
  ValueMethods : List Selection
  PointerMethods : List Selection

/-- A loaded `*packages.Package`: its name and the lookup in its scope. -/
structure LoadedPackage where
  Name : String
  Lookup : String → Option Object

/-! ## The resolved model (`Param`, `Method`, `Type`) -/

/-- Go `Param`; the field `Type` is `Typ` here. -/
structure Param where
  Name : String
  Typ : String
  Variadic : Bool
deriving DecidableEq, Repr

/-- Go `Method`. -/
structure Method where
  Name : String
  Params : List Param
  Results : List Param
  ReturnsError : Bool
  AcceptsContext : Bool
deriving DecidableEq, Repr

/-- Go `Type` (wrap.go 160-167); its field `Type` is `Typ` here. -/
structure WrappedType where
  Typ : String
  PwdPkg : String
  Pkg : String
  Methods : List Method
  IsInterface : Bool
deriving DecidableEq, Repr

/-! ## Parameter normalizer and method-set resolver -/

/-- Go `isErrorType` (wrap.go 317-320). -/
def isErrorType (t : GoType) : Bool :=
  t.String == "error" && t.Underlying.String == "interface\x7bError() string\x7d"

/-- Go `typeName` (wrap.go 322-332): the type rendered with the qualifier that
drops the package name equal to `pkg`. -/
def typeName (pkg : String) (t : GoType) : String :=
  typeString (fun other => if pkg = other.Name then "" else other.Name) t

/-- Go `isPrivate` (wrap.go 334-336): `unicode.IsLower(rune(s[0]))` on the first
byte of `s`; `none` is the index-out-of-range failure on the empty string. -/
def isPrivate (s : String) : Option Bool :=
  match s.data with
  | [] => none
  | c :: _ => some (unicodeIsLowerLatin1 (utf8FirstByte c))

/-- Go `newParam` (wrap.go 262-279): the parameter, and `usedNames` after the
name has been registered. -/
def newParam (toLower : Char → Char) (pwdPkg : String) (v : Var) (usedNames : List String) :
    Param × List String :=
  let tName := typeName pwdPkg v.Typ
  let name := if v.Name = "" then genName toLower tName 0 usedNames else v.Name
  ({ Name := name, Typ := tName, Variadic := false }, name :: usedNames)

/-- The loop over the parameters (wrap.go 229-240), from index `i` on: `vs` are
the variables `params.At(i), ...`, `len` is `params.Len()`. -/
def paramsLoop (toLower : Char → Char) (pwdPkg : String) (len : Nat) (variadic : Bool) :
    Nat → List Var → List String → Method → Method
  | _, [], _, m => m
  | i, v :: vs, paramsUsedNames, m =>
    let (param, used) := newParam toLower pwdPkg v paramsUsedNames
    let param := if i = len - 1 ∧ variadic = true then { param with Variadic := true } else param
    let m := if i = 0 ∧ param.Typ = "context.Context" then { m with AcceptsContext := true } else m
    paramsLoop toLower pwdPkg len variadic (i + 1) vs used { m with Params := m.Params ++ [param] }

/-- The loop over the results (wrap.go 242-252), from index `i` on. -/
def resultsLoop (toLower : Char → Char) (pwdPkg : String) (len : Nat) :
    Nat → List Var → List String → Method → Method
  | _, [], _, m => m
  | i, v :: vs, resultsUsedNames, m =>
    let (param, used) := newParam toLower pwdPkg v resultsUsedNames
    let m := { m with Results := m.Results ++ [param] }
    let m := if i = len - 1 ∧ isErrorType v.Typ = true then { m with ReturnsError := true } else m
    resultsLoop toLower pwdPkg len (i + 1) vs used m

/-- The method built from one entry of a method set once it has passed the
name checks (wrap.go 217-219 and 226-252). -/
def parseMethod (toLower : Char → Char) (pwdPkg : String) (s : Selection) : Method :=
  let m : Method :=
    { Name := s.Name, Params := [], Results := [], ReturnsError := false,
      AcceptsContext := false }
  let m := paramsLoop toLower pwdPkg s.Params.length s.Variadic 0 s.Params [] m
  resultsLoop toLower pwdPkg s.Results.length 0 s.Results [] m

/-- The loop over one method set (wrap.go 216-255) on the state `(t,
methodCheck)`; `none` when `isPrivate` fails. -/
def methodSetLoop (toLower : Char → Char) (pwdPkg : String) :
    List Selection → WrappedType × List String → Option (WrappedType × List String)
  | [], st => some st
  | s :: rest, (t, methodCheck) =>
    match isPrivate s.Name with
    | none => none
    | some priv =>
      if priv = true ∨ s.Name ∈ methodCheck then
        methodSetLoop toLower pwdPkg rest (t, methodCheck)
      else
        methodSetLoop toLower pwdPkg rest
          ({ t with Methods := t.Methods ++ [parseMethod toLower pwdPkg s] },
            s.Name :: methodCheck)

/-- The loop over the loaded packages (wrap.go 202-257). -/
def packagesLoop (toLower : Char → Char) (pwdPkg : String) (name : String) :
    List LoadedPackage → WrappedType × List String → Option (WrappedType × List String)
  | [], st => some st
  | pkg :: rest, (t, methodCheck) =>
    let t := { t with Pkg := pkg.Name }
    match pkg.Lookup name with
    | none => packagesLoop toLower pwdPkg name rest (t, methodCheck)
    | some l =>
      let t := { t with IsInterface := IsInterface l.Typ }
      match methodSetLoop toLower pwdPkg l.ValueMethods (t, methodCheck) with
      | none => none
      | some st =>
        match methodSetLoop toLower pwdPkg l.PointerMethods st with
        | none => none
        | some st => packagesLoop toLower pwdPkg name rest st

/-- Go `Parse` (wrap.go 195-260); `none` is a run-time failure of `isPrivate`. -/
def Parse (toLower : Char → Char) (pwdPkg : String) (pkgs : List LoadedPackage)
    (name : String) : Option WrappedType :=
  (packagesLoop toLower pwdPkg name pkgs
    ({ Typ := name, PwdPkg := pwdPkg, Pkg := "", Methods := [], IsInterface := false },
      [])).map Prod.fst

/-! ## Definitions used in the statements and proofs -/

/-- The number a list of decimal digit runes denotes. -/
def decodeDecimal (l : List Char) : Nat :=
  l.foldl (fun a c => 10 * a + (c.toNat - 48)) 0

/-- The name tried at recursion depth `k` of `genName t n`. -/
def genNameTry (toLower : Char → Char) : Nat → String → Nat → String
  | 0, t, n => genNameCandidate toLower t n
  | k + 1, t, n => genNameTry toLower k (genNameCandidate toLower t n) (n + 1)

/-- The parameter at index `i` after the variadic mark of wrap.go 232-234. -/
def markVariadic (len : Nat) (variadic : Bool) (i : Nat) (p : Param) : Param :=
  if i = len - 1 ∧ variadic = true then { p with Variadic := true } else p

/-- The parameters the loop of `paramsLoop` appends, from index `i` on. -/
def paramList (toLower : Char → Char) (pwdPkg : String) (len : Nat) (variadic : Bool) :
    Nat → List Var → List String → List Param
  | _, [], _ => []
  | i, v :: vs, usedNames =>
    let p := (newParam toLower pwdPkg v usedNames).1
    markVariadic len variadic i p ::
      paramList toLower pwdPkg len variadic (i + 1) vs (p.Name :: usedNames)

/-- Whether the first variable of a list renders as `context.Context`. -/
def headIsContext (pwdPkg : String) : List Var → Bool
  | [] => false
  | v :: _ => typeName pwdPkg v.Typ == "context.Context"

/-- Whether the last variable of a list has an error type. -/
def lastIsError : List Var → Bool
  | [] => false
  | [v] => isErrorType v.Typ
  | _ :: v :: vs => lastIsError (v :: vs)

/-- The method-set entries `Parse` visits for `name`, in the order of the visit:
for each package that declares `name`, the value-form method set followed by the
pointer-form method set. -/
def scannedSelections (name : String) : List LoadedPackage → List Selection
  | [] => []
  | pkg :: rest =>
    match pkg.Lookup name with
    | none => scannedSelections name rest
    | some l => l.ValueMethods ++ l.PointerMethods ++ scannedSelections name rest

/-- The entries that pass the check of wrap.go 220, `methodCheck` holding the
names recorded before. -/
def keptSelections : List String → List Selection → List Selection
  | _, [] => []
  | methodCheck, s :: rest =>
    if isPrivate s.Name = some true ∨ s.Name ∈ methodCheck then
      keptSelections methodCheck rest
    else s :: keptSelections (s.Name :: methodCheck) rest

/-- The set `methodCheck` after a list of entries has been visited. -/
def checkAfter : List String → List Selection → List String
  | methodCheck, [] => methodCheck
  | methodCheck, s :: rest =>
    if isPrivate s.Name = some true ∨ s.Name ∈ methodCheck then checkAfter methodCheck rest
    else checkAfter (s.Name :: methodCheck) rest

/-- The field `Pkg` after the loop over the packages: the name of the last
loaded package. -/
def finalPkg : String → List LoadedPackage → String
  | init, [] => init
  | _, pkg :: rest => finalPkg pkg.Name rest

/-- The field `IsInterface` after the loop over the packages: that of the last
package declaring `name`. -/
def finalIsInterface (name : String) : Bool → List LoadedPackage → Bool
  | init, [] => init
  | init, pkg :: rest =>
    match pkg.Lookup name with
    | none => finalIsInterface name init rest
    | some l => finalIsInterface name (IsInterface l.Typ) rest

/-- The names of a parameter or result list obey the rule of Go signatures and
do not repeat: either no variable is named, or every variable is named and the
names are pairwise distinct (so the blank name `_` occurs at most once). -/
def DistinctExplicitNames (vs : List Var) : Prop :=
  (∀ v ∈ vs, v.Name = "") ∨ ((∀ v ∈ vs, v.Name ≠ "") ∧ (vs.map Var.Name).Nodup)

/-! ## Example type models -/

/-- The universe type `error`. -/
def errorType : GoType :=
  .named none "error" (.interface [("Error", [], [("", .basic "string")], false)])

/-- The type `context.Context` (its method list abridged to `Err() error`; a
named type is rendered by its name alone). -/
def contextType : GoType :=
  .named (some ⟨"context", "context"⟩) "Context"
    (.interface [("Err", [], [("", errorType)], false)])

/-- The package `example.com/store`. -/
def storePkg : Package := ⟨"store", "example.com/store"⟩

/-- The type `store.Item`. -/
def itemType : GoType := .named (some storePkg) "Item" (.basic "string")

/-- The method `Fetch(ctx context.Context, id string) (Item, error)`. -/
def fetchSelection : Selection :=
  { Name := "Fetch", Params := [⟨"ctx", contextType⟩, ⟨"id", .basic "string"⟩],
    Results := [⟨"", itemType⟩, ⟨"", errorType⟩], Variadic := false }

/-- The method `Len() int`. -/
def lenSelection : Selection :=
  { Name := "Len", Params := [], Results := [⟨"", .basic "int"⟩], Variadic := false }

/-- The interface `store.Store` with the methods `Fetch` and `Len`; the pointer
to an interface has no methods. -/
def storeObject : Object :=
  { Typ := .named (some storePkg) "Store"
      (.interface
        [("Fetch", [("ctx", contextType), ("id", .basic "string")],
            [("", itemType), ("", errorType)], false),
         ("Len", [], [("", .basic "int")], false)]),
    ValueMethods := [fetchSelection, lenSelection], PointerMethods := [] }

/-- The method `Write(parts ...string) (int, error)`: the variadic parameter has
the slice type `[]string`. -/
def writeSelection : Selection :=
  { Name := "Write", Params := [⟨"parts", .slice (.basic "string")⟩],
    Results := [⟨"", .basic "int"⟩, ⟨"", errorType⟩], Variadic := true }

/-- The interface `store.Writer`. -/
def writerObject : Object :=
  { Typ := .named (some storePkg) "Writer"
      (.interface
        [("Write", [("parts", .slice (.basic "string"))],
          [("", .basic "int"), ("", errorType)], true)]),
    ValueMethods := [writeSelection], PointerMethods := [] }

/-- The locally declared `type MyError interface { Error() string }`. -/
def myErrorType : GoType :=
  .named (some storePkg) "MyError" (.interface [("Error", [], [("", .basic "string")], false)])

/-- The method `Check() MyError`. -/
def checkSelection : Selection :=
  { Name := "Check", Params := [], Results := [⟨"", myErrorType⟩], Variadic := false }

/-- The interface `store.Checker`. -/
def checkerObject : Object :=
  { Typ := .named (some storePkg) "Checker"
      (.interface [("Check", [], [("", myErrorType)], false)]),
    ValueMethods := [checkSelection], PointerMethods := [] }

/-- The method `Put(_ int, _ string)` with two blank parameter names. -/
def putSelection : Selection :=
  { Name := "Put", Params := [⟨"_", .basic "int"⟩, ⟨"_", .basic "string"⟩],
    Results := [], Variadic := false }

/-- The method `Pair(string, string) (error, error)` with unnamed parameters
and results. -/
def pairSelection : Selection :=
  { Name := "Pair", Params := [⟨"", .basic "string"⟩, ⟨"", .basic "string"⟩],
    Results := [⟨"", errorType⟩, ⟨"", errorType⟩], Variadic := false }

/-- The interface `store.Sink`. -/
def sinkObject : Object :=
  { Typ := .named (some storePkg) "Sink"
      (.interface
        [("Pair", [("", .basic "string"), ("", .basic "string")],
            [("", errorType), ("", errorType)], false),
         ("Put", [("_", .basic "int"), ("_", .basic "string")], [], false)]),
    ValueMethods := [pairSelection, putSelection], PointerMethods := [] }

/-- The method `Get() int`, declared on the value receiver. -/
def getSelection : Selection :=
  { Name := "Get", Params := [], Results := [⟨"", .basic "int"⟩], Variadic := false }

/-- The method `Inc()`, declared on the pointer receiver. -/
def incSelection : Selection :=
  { Name := "Inc", Params := [], Results := [], Variadic := false }

/-- The concrete type `store.Counter`: `Get` is in both method sets, `Inc` only
in that of the pointer. -/
def counterObject : Object :=
  { Typ := .named (some storePkg) "Counter" (.basic "int"),
    ValueMethods := [getSelection], PointerMethods := [getSelection, incSelection] }

/-- A method without parameters and results. -/
def plainSelection (name : String) : Selection :=
  { Name := name, Params := [], Results := [], Variadic := false }

/-- The concrete type `store.Tool` with the exported methods `Run` and `Ḃuild`
(first rune U+1E02, an upper-case letter of three bytes) and the unexported
methods `_helper`, `helper` and `éval`. -/
def toolObject : Object :=
  { Typ := .named (some storePkg) "Tool" (.basic "int"),
    ValueMethods :=
      [plainSelection "Run", plainSelection "Ḃuild", plainSelection "_helper",
        plainSelection "helper", plainSelection "éval"],
    PointerMethods :=
      [plainSelection "Run", plainSelection "Ḃuild", plainSelection "_helper",
        plainSelection "helper", plainSelection "éval"] }

/-- The loaded package `store` declaring the types above. -/
def storePackage : LoadedPackage :=
  { Name := "store",
    Lookup := fun n =>
      if n = "Store" then some storeObject
      else if n = "Writer" then some writerObject
      else if n = "Checker" then some checkerObject
      else if n = "Sink" then some sinkObject
      else if n = "Counter" then some counterObject
      else if n = "Tool" then some toolObject
      else none }

/-- The method `Parse` builds for `Fetch` seen from package `main`. -/
def fetchMethod : Method :=
  { Name := "Fetch",
    Params := [⟨"ctx", "context.Context", false⟩, ⟨"id", "string", false⟩],
    Results := [⟨"i", "store.Item", false⟩, ⟨"err", "error", false⟩],
    ReturnsError := true, AcceptsContext := true }

/-- The method `Parse` builds for `Len`. -/
def lenMethod : Method :=
  { Name := "Len", Params := [], Results := [⟨"i", "int", false⟩],
    ReturnsError := false, AcceptsContext := false }

/-- The result of `Parse` for `Store` seen from package `main`. -/
def storeResult : WrappedType :=
  { Typ := "Store", PwdPkg := "main", Pkg := "store", Methods := [fetchMethod, lenMethod],
    IsInterface := true }

/-- The method `Parse` builds for `Write`. -/
def writeMethod : Method :=
  { Name := "Write", Params := [⟨"parts", "[]string", true⟩],
    Results := [⟨"i", "int", false⟩, ⟨"err", "error", false⟩],
    ReturnsError := true, AcceptsContext := false }

/-- The result of `Parse` for `Writer` seen from package `main`. -/
def writerResult : WrappedType :=
  { Typ := "Writer", PwdPkg := "main", Pkg := "store", Methods := [writeMethod],
    IsInterface := true }

/-- The method `Parse` builds for `Pair`. -/
def pairMethod : Method :=
  { Name := "Pair", Params := [⟨"s", "string", false⟩, ⟨"s1", "string", false⟩],
    Results := [⟨"err", "error", false⟩, ⟨"e1", "error", false⟩],
    ReturnsError := true, AcceptsContext := false }

/-- The method `Parse` builds for `Put`. -/
def putMethod : Method :=
  { Name := "Put", Params := [⟨"_", "int", false⟩, ⟨"_", "string", false⟩], Results := [],
    ReturnsError := false, AcceptsContext := false }

/-- The result of `Parse` for `Sink` seen from package `main`. -/
def sinkResult : WrappedType :=
  { Typ := "Sink", PwdPkg := "main", Pkg := "store", Methods := [pairMethod, putMethod],
    IsInterface := true }

/-- The result of `Parse` for `Counter` seen from package `main`. -/
def counterResult : WrappedType :=
  { Typ := "Counter", PwdPkg := "main", Pkg := "store",
    Methods :=
      [{ Name := "Get", Params := [], Results := [⟨"i", "int", false⟩],
         ReturnsError := false, AcceptsContext := false },
       { Name := "Inc", Params := [], Results := [], ReturnsError := false,
         AcceptsContext := false }],
    IsInterface := false }

/-! ## Rendering helpers of `Method` and `Type` -/

/-- The UTF-8 encoding of a rune, as Go stores it in a string. -/
def utf8Encode (c : Char) : List Nat :=
  let v := c.toNat
  if v < 0x80 then [v]
  else if v < 0x800 then [0xC0 + v / 0x40, 0x80 + v % 0x40]
  else if v < 0x10000 then [0xE0 + v / 0x1000, 0x80 + v / 0x40 % 0x40, 0x80 + v % 0x40]
  else [0xF0 + v / 0x40000, 0x80 + v / 0x1000 % 0x40, 0x80 + v / 0x40 % 0x40, 0x80 + v % 0x40]

/-- The bytes of a rune list. -/
def utf8BytesOf : List Char → List Nat
  | [] => []
  | c :: cs => utf8Encode c ++ utf8BytesOf cs

/-- The bytes of a Go string. -/
def utf8Bytes (s : String) : List Nat :=
  utf8BytesOf s.data

/-- Go `camelize` (cmd/go-wrap/main.go 129-134): in the first iteration of the
range loop `i` is 0 and `v` the first rune, and the result is the encoding of
`unicode.ToLower(v)` followed by `s[i+1:]`, the bytes of `s` from offset 1. -/
def camelize (toLower : Char → Char) (s : String) : List Nat :=
  match s.data with
  | [] => []
  | v :: _ => utf8Encode (toLower v) ++ (utf8Bytes s).drop (0 + 1)

/-- Go `Type.Camelize` (wrap.go 169-175), the same loop on the field `Type`. -/
def WrappedType.Camelize (toLower : Char → Char) (t : WrappedType) : List Nat :=
  match t.Typ.data with
  | [] => []
  | v :: _ => utf8Encode (toLower v) ++ (utf8Bytes t.Typ).drop (0 + 1)

/-- Whether the rune list `l` starts with `old`. -/
def startsWith : List Char → List Char → Bool
  | [], _ => true
  | _ :: _, [] => false
  | a :: old, b :: l => a == b && startsWith old l

/-- The first occurrence of `old` in a rune list replaced by `new`. -/
def replaceFirst (old new : List Char) : List Char → List Char
  | [] => if startsWith old [] then new else []
  | c :: cs =>
    if startsWith old (c :: cs) then new ++ (c :: cs).drop old.length
    else c :: replaceFirst old new cs

/-- Go `strings.Replace(s, old, new, 1)`. -/
def stringsReplaceFirst (s old new : String) : String :=
  String.mk (replaceFirst old.data new.data s.data)

/-- Go `strings.Join(elems, sep)`. -/
def stringsJoin : List String → String → String
  | [], _ => ""
  | [a], _ => a
  | a :: b :: rest, sep => a ++ sep ++ stringsJoin (b :: rest) sep

/-- Go `Method.Signature` (wrap.go 38-56). -/
def Method.Signature (m : Method) : String :=
  let params := m.Params.map (fun p =>
    let pass := p.Name ++ " " ++ p.Typ
    if p.Variadic = true then stringsReplaceFirst pass "[]" "..." else pass)
  let results := m.Results.map (fun r => r.Typ)
  "(" ++ stringsJoin params ", " ++ ") (" ++ stringsJoin results ", " ++ ")"

/-- Go `Method.Declaration` (wrap.go 58-61). -/
def Method.Declaration (m : Method) : String :=
  m.Name ++ m.Signature

/-- Go `Method.ParamsStruct` (wrap.go 91-103). -/
def Method.ParamsStruct (m : Method) : String :=
  let ss := m.Params.map (fun p =>
    if p.Variadic = true then p.Name ++ " " ++ stringsReplaceFirst p.Typ "..." "[]"
    else p.Name ++ " " ++ p.Typ)
  "struct\x7b\n" ++ stringsJoin ss "\n " ++ "\x7d"

/-! ## Reference definitions following the specification -/

/-- The text of a type expression after its last `.`: the whole expression when
it holds no `.`. -/
def afterLastDot : List Char → List Char
  | [] => []
  | c :: cs => if '.' ∈ cs then afterLastDot cs else if c = '.' then cs else c :: cs

/-- The candidate name as the specification words it: `ctx` for
`context.Context`, `err` for `error`, `v` for the empty type expression, and
otherwise the lower-cased first rune of the text after the last `.`; nothing is
specified when that text is empty. -/
def variableForTypeSpec (toLower : Char → Char) (t : String) : Option String :=
  if t = "context.Context" then some "ctx"
  else if t = "error" then some "err"
  else if t = "" then some "v"
  else
    match afterLastDot t.data with
    | [] => none
    | c :: _ => some (String.singleton (toLower c))

/-- The name the specification gives the parameter at index `k` of a list of
unnamed `string` parameters: `s`, `s1`, `s2`, ... -/
def stringParamName (k : Nat) : String :=
  if k = 0 then "s" else "s" ++ toString k

/-- The rendering of one parameter in a signature as the specification words
it: `name type`, and `name ...E` for a variadic parameter of type `[]E`. -/
def signatureParamSpec (p : Param) : String :=
  if p.Variadic = true then
    match p.Typ.data with
    | '[' :: ']' :: e => p.Name ++ " ..." ++ String.mk e
    | _ => p.Name ++ " " ++ p.Typ
  else p.Name ++ " " ++ p.Typ

/-- Whether a rune list holds `old` as a contiguous part. -/
def containsRunes (old : List Char) : List Char → Bool
  | [] => startsWith old []
  | c :: cs => startsWith old (c :: cs) || containsRunes old cs

/-! ## Further example type models -/

/-- The interface `io.Reader` with `Read(p []byte) (n int, err error)`. -/
def readerObject : Object :=
  { Typ := .named (some ⟨"io", "io"⟩) "Reader"
      (.interface
        [("Read", [("p", .slice (.basic "byte"))], [("n", .basic "int"), ("err", errorType)],
          false)]),
    ValueMethods :=
      [{ Name := "Read", Params := [⟨"p", .slice (.basic "byte")⟩],
         Results := [⟨"n", .basic "int"⟩, ⟨"err", errorType⟩], Variadic := false }],
    PointerMethods := [] }

/-- The interface `io.Writer` written with unnamed variables,
`Write([]byte) (int, error)`. -/
def rawWriterObject : Object :=
  { Typ := .named (some ⟨"io", "io"⟩) "Writer"
      (.interface
        [("Write", [("", .slice (.basic "byte"))], [("", .basic "int"), ("", errorType)],
          false)]),
    ValueMethods :=
      [{ Name := "Write", Params := [⟨"", .slice (.basic "byte")⟩],
         Results := [⟨"", .basic "int"⟩, ⟨"", errorType⟩], Variadic := false }],
    PointerMethods := [] }

/-- The loaded package `io`. -/
def ioPackage : LoadedPackage :=
  { Name := "io",
    Lookup := fun n =>
      if n = "Reader" then some readerObject
      else if n = "Writer" then some rawWriterObject
      else none }

/-- The result of `Parse` for `io.Reader` seen from package `main`. -/
def readerResult : WrappedType :=
  { Typ := "Reader", PwdPkg := "main", Pkg := "io",
    Methods :=
      [{ Name := "Read", Params := [⟨"p", "[]byte", false⟩],
         Results := [⟨"n", "int", false⟩, ⟨"err", "error", false⟩],
         ReturnsError := true, AcceptsContext := false }],
    IsInterface := true }

/-- A loaded package `util` that declares none of the example types. -/
def utilPackage : LoadedPackage :=
  { Name := "util", Lookup := fun _ => none }

/-- A loaded package `shadow` declaring its own concrete type `Store` with the
single method `Close()`. -/
def shadowPackage : LoadedPackage :=
  { Name := "shadow",
    Lookup := fun n =>
      if n = "Store" then
        some { Typ := .named (some ⟨"shadow", "example.com/shadow"⟩) "Store" (.basic "int"),
               ValueMethods := [plainSelection "Close"],
               PointerMethods := [plainSelection "Close"] }
      else none }

/-- The concrete type `Gauge` with `func (g *Gauge) Add()` and
`func (g Gauge) Size()`: the method sets are sorted by name, so the value form
holds `Size` and the pointer form `Add`, `Size`. -/
def gaugeObject : Object :=
  { Typ := .named (some ⟨"metrics", "example.com/metrics"⟩) "Gauge" (.basic "int"),
    ValueMethods := [plainSelection "Size"],
    PointerMethods := [plainSelection "Add", plainSelection "Size"] }

/-- The type `func(...int)`. -/
def intsFuncType : GoType :=
  .signature [("", .slice (.basic "int"))] [] true

/-- The interface `Applier` with `Apply(fs ...func(...int))`: the variadic
parameter has the slice type `[]func(...int)`. -/
def applierObject : Object :=
  { Typ := .named (some ⟨"metrics", "example.com/metrics"⟩) "Applier"
      (.interface [("Apply", [("fs", .slice intsFuncType)], [], true)]),
    ValueMethods :=
      [{ Name := "Apply", Params := [⟨"fs", .slice intsFuncType⟩], Results := [],
         Variadic := true }],
    PointerMethods := [] }

/-- The interface `Joiner` with `Join(string, string, string) string`. -/
def joinerObject : Object :=
  { Typ := .named (some ⟨"metrics", "example.com/metrics"⟩) "Joiner"
      (.interface
        [("Join", [("", .basic "string"), ("", .basic "string"), ("", .basic "string")],
          [("", .basic "string")], false)]),
    ValueMethods :=
      [{ Name := "Join",
         Params := [⟨"", .basic "string"⟩, ⟨"", .basic "string"⟩, ⟨"", .basic "string"⟩],
         Results := [⟨"", .basic "string"⟩], Variadic := false }],
    PointerMethods := [] }

/-- The loaded package `metrics`. -/
def metricsPackage : LoadedPackage :=
  { Name := "metrics",
    Lookup := fun n =>
      if n = "Gauge" then some gaugeObject
      else if n = "Applier" then some applierObject
      else if n = "Joiner" then some joinerObject
      else none }

/-- The result of `Parse` for `Gauge` seen from package `main`. -/
def gaugeResult : WrappedType :=
  { Typ := "Gauge", PwdPkg := "main", Pkg := "metrics",
    Methods :=
      [{ Name := "Size", Params := [], Results := [], ReturnsError := false,
         AcceptsContext := false },
       { Name := "Add", Params := [], Results := [], ReturnsError := false,
         AcceptsContext := false }],
    IsInterface := false }

/-- The method `Parse` builds for `Apply(fs ...func(...int))`. -/
def applyMethod : Method :=
  { Name := "Apply", Params := [⟨"fs", "[]func(...int)", true⟩], Results := [],
    ReturnsError := false, AcceptsContext := false }

/-- A Method with one variadic parameter `m` whose Type `map[string][]int` is
not in slice form but holds `[]`. -/
def mapVariadicMethod : Method :=
  { Name := "Set", Params := [⟨"m", "map[string][]int", true⟩], Results := [],
    ReturnsError := false, AcceptsContext := false }

/-! ## Decimal numerals -/

theorem toDigitsCore_append_acc (fuel : Nat) : ∀ (n : Nat) (ds : List Char),
    Nat.toDigitsCore 10 fuel n ds = Nat.toDigitsCore 10 fuel n [] ++ ds := by
  induction fuel with
  | zero => intro n ds; simp [Nat.toDigitsCore]
  | succ fuel ih =>
    intro n ds
    simp only [Nat.toDigitsCore]
    split
    · simp
    · rw [ih (n / 10) (Nat.digitChar (n % 10) :: ds), ih (n / 10) [Nat.digitChar (n % 10)]]
      simp

theorem digitChar_val : ∀ k, k < 10 → (Nat.digitChar k).toNat - 48 = k := by decide

theorem digitChar_isDigit : ∀ k, k < 10 → (Nat.digitChar k).isDigit = true := by decide

theorem decodeDecimal_snoc (l : List Char) (c : Char) :
    decodeDecimal (l ++ [c]) = 10 * decodeDecimal l + (c.toNat - 48) := by
  simp [decodeDecimal, List.foldl_append]

theorem decodeDecimal_toDigitsCore (fuel : Nat) : ∀ n, n < fuel →
    decodeDecimal (Nat.toDigitsCore 10 fuel n []) = n := by
  induction fuel with
  | zero => intro n h; omega
  | succ fuel ih =>
    intro n h
    simp only [Nat.toDigitsCore]
    split
    · rename_i h0
      have hlt : n % 10 < 10 := Nat.mod_lt _ (by decide)
      simp [decodeDecimal, digitChar_val _ hlt]
      omega
    · rename_i h0
      rw [toDigitsCore_append_acc, decodeDecimal_snoc, ih (n / 10) (by omega),
        digitChar_val _ (Nat.mod_lt _ (by decide))]
      omega

theorem toDigitsCore_isDigit (fuel : Nat) : ∀ (n : Nat) (ds : List Char),
    (∀ c ∈ ds, c.isDigit = true) → ∀ c ∈ Nat.toDigitsCore 10 fuel n ds, c.isDigit = true := by
  induction fuel with
  | zero => intro n ds h; simpa [Nat.toDigitsCore] using h
  | succ fuel ih =>
    intro n ds h
    have hd : (Nat.digitChar (n % 10)).isDigit = true :=
      digitChar_isDigit _ (Nat.mod_lt _ (by decide))
    have h2 : ∀ c ∈ Nat.digitChar (n % 10) :: ds, c.isDigit = true := by
      intro c hc
      rcases List.mem_cons.1 hc with rfl | hc
      · exact hd
      · exact h c hc
    simp only [Nat.toDigitsCore]
    split
    · exact h2
    · exact ih _ _ h2

theorem toString_data (n : Nat) : (toString n).data = Nat.toDigits 10 n := rfl

theorem toString_nat_injective {n m : Nat} (h : toString n = toString m) : n = m := by
  have h1 : Nat.toDigits 10 n = Nat.toDigits 10 m := by
    rw [← toString_data, ← toString_data, h]
  have h2 := congrArg decodeDecimal h1
  simpa [Nat.toDigits, decodeDecimal_toDigitsCore] using h2

theorem toString_nat_isDigit (n : Nat) : ∀ c ∈ (toString n).data, c.isDigit = true := by
  rw [toString_data]
  exact toDigitsCore_isDigit _ _ _ (by simp)

theorem toString_nat_ne_nil (n : Nat) : (toString n).data ≠ [] := by
  rw [toString_data]
  simp only [Nat.toDigits, Nat.toDigitsCore]
  split
  · simp
  · rw [toDigitsCore_append_acc]; simp


theorem firstRuneString_eq_none {s : String} (h : firstRuneString s = none) : s = "" := by
  unfold firstRuneString at h
  split at h
  · rename_i h0
    exact String.ext (by simpa using h0)
  · simp at h

theorem firstRuneString_some {s r : String} (h : firstRuneString s = some r) :
    ∃ c, r = String.singleton c := by
  unfold firstRuneString at h
  split at h
  · simp at h
  · rename_i v _ _
    exact ⟨v, by simpa using h.symm⟩

theorem stringsToLower_eq_empty {toLower : Char → Char} {s : String}
    (h : stringsToLower toLower s = "") : s = "" := by
  have h1 := congrArg String.data h
  simp [stringsToLower] at h1
  exact String.ext (by simpa using h1)

/-- The candidate is `ctx`, `err`, the fallback `v`, or a one-rune string. -/
theorem variableForType_cases (toLower : Char → Char) (t : String) :
    variableForType toLower t = "ctx" ∨ variableForType toLower t = "err" ∨
      variableForType toLower t = "v" ∨ ∃ c, variableForType toLower t = String.singleton c := by
  unfold variableForType
  split
  · exact Or.inl rfl
  · split
    · exact Or.inr (Or.inl rfl)
    · simp only
      split
      · rename_i v hv
        split at hv
        · exact Or.inr (Or.inr (Or.inr (firstRuneString_some hv)))
        · simp at hv
      · split
        · rename_i v hv
          exact Or.inr (Or.inr (Or.inr (firstRuneString_some hv)))
        · exact Or.inr (Or.inr (Or.inl rfl))

/-- Away from the two special type expressions and the empty one, the candidate
is a one-rune string. -/
theorem variableForType_singleton (toLower : Char → Char) (t : String)
    (h0 : t ≠ "") (h1 : t ≠ "context.Context") (h2 : t ≠ "error") :
    ∃ c, variableForType toLower t = String.singleton c := by
  unfold variableForType
  rw [if_neg h1, if_neg h2]
  simp only
  split
  · rename_i v hv
    split at hv
    · exact firstRuneString_some hv
    · simp at hv
  · split
    · rename_i v hv
      exact firstRuneString_some hv
    · rename_i hv
      exact absurd (stringsToLower_eq_empty (firstRuneString_eq_none hv)) h0

theorem variableForType_ne_empty (toLower : Char → Char) (t : String) :
    variableForType toLower t ≠ "" := by
  rcases variableForType_cases toLower t with h | h | h | ⟨c, h⟩ <;> rw [h]
  · decide
  · decide
  · decide
  · intro hc
    have := congrArg String.data hc
    simp [String.singleton] at this

theorem genNameCandidate_ne_empty (toLower : Char → Char) (t : String) (n : Nat) :
    genNameCandidate toLower t n ≠ "" := by
  unfold genNameCandidate
  split
  · intro hc
    have h1 := congrArg String.data hc
    have h2 := variableForType_ne_empty toLower t
    simp at h1
    exact h2 (String.ext (by simpa using h1.1))
  · exact variableForType_ne_empty toLower t

/-- A name tried by `genName` is never one of the two special type expressions:
it is `ctx`, `err`, `v` or one rune, possibly followed by decimal digits. -/
theorem genNameCandidate_not_special (toLower : Char → Char) (t : String) (n : Nat) :
    genNameCandidate toLower t n ≠ "context.Context" ∧ genNameCandidate toLower t n ≠ "error" := by
  unfold genNameCandidate
  split
  · have hd := toString_nat_isDigit n
    have hne := toString_nat_ne_nil n
    have key : ∀ (s : String), (∀ c ∈ s.data, c.isDigit = false) →
        variableForType toLower t ++ toString n ≠ s := by
      intro s hs hc
      have h1 := congrArg String.data hc
      simp only [String.data_append] at h1
      obtain ⟨c, hcmem⟩ := List.exists_mem_of_ne_nil _ hne
      have h3 : c ∈ s.data := by rw [← h1]; exact List.mem_append_right _ hcmem
      have := hs c h3
      rw [hd c hcmem] at this
      exact Bool.noConfusion this
    exact ⟨key _ (by decide), key _ (by decide)⟩
  · rcases variableForType_cases toLower t with h | h | h | ⟨c, h⟩ <;> rw [h]
    · exact ⟨by decide, by decide⟩
    · exact ⟨by decide, by decide⟩
    · exact ⟨by decide, by decide⟩
    · constructor <;> intro hc <;> have := congrArg String.length hc <;>
        simp [String.singleton, String.length] at this

theorem genNameTry_ne_empty (toLower : Char → Char) : ∀ (k : Nat) (t : String) (n : Nat),
    genNameTry toLower k t n ≠ "" := by
  intro k
  induction k with
  | zero => intro t n; exact genNameCandidate_ne_empty toLower t n
  | succ k ih => intro t n; exact ih _ _

/-- From the second try on, the name is one rune followed by the counter. -/
theorem genNameTry_succ_shape (toLower : Char → Char) : ∀ (k : Nat) (t : String) (n : Nat),
    ∃ c, genNameTry toLower (k + 1) t n = String.singleton c ++ toString (n + k + 1) := by
  intro k
  induction k with
  | zero =>
    intro t n
    have hs := genNameCandidate_not_special toLower t n
    obtain ⟨c, hc⟩ := variableForType_singleton toLower (genNameCandidate toLower t n)
      (genNameCandidate_ne_empty toLower t n) hs.1 hs.2
    refine ⟨c, ?_⟩
    simp only [genNameTry]
    rw [genNameCandidate, if_pos (Nat.succ_pos n), hc]
  | succ k ih =>
    intro t n
    obtain ⟨c, hc⟩ := ih (genNameCandidate toLower t n) (n + 1)
    refine ⟨c, ?_⟩
    rw [genNameTry, hc]
    congr 2
    omega

theorem genNameTry_succ_injective (toLower : Char → Char) (t : String) (n : Nat) {j k : Nat}
    (h : genNameTry toLower (j + 1) t n = genNameTry toLower (k + 1) t n) : j = k := by
  obtain ⟨c, hc⟩ := genNameTry_succ_shape toLower j t n
  obtain ⟨d, hd⟩ := genNameTry_succ_shape toLower k t n
  rw [hc, hd] at h
  have h1 := congrArg String.data h
  have e1 : ∀ x : Char, (String.singleton x).data = [x] := fun _ => rfl
  simp only [String.data_append, e1, List.cons_append, List.nil_append,
    List.cons.injEq] at h1
  have h2 : toString (n + j + 1) = toString (n + k + 1) := String.ext h1.2
  have := toString_nat_injective h2
  omega


/-- With the first `k` tries all used and try `k` unused, `genName` returns try
`k` as soon as the depth bound exceeds `k`. -/
theorem genNameFuel_eq_try (toLower : Char → Char) (usedNames : List String) :
    ∀ (k fuel : Nat) (t : String) (n : Nat), k < fuel →
      (∀ j, j < k → genNameTry toLower j t n ∈ usedNames) →
      genNameTry toLower k t n ∉ usedNames →
      genNameFuel toLower fuel t n usedNames = some (genNameTry toLower k t n) := by
  intro k
  induction k with
  | zero =>
    intro fuel t n hk _ hnot
    obtain ⟨f, rfl⟩ : ∃ f, fuel = f + 1 := ⟨fuel - 1, by omega⟩
    simp only [genNameTry] at hnot
    simp [genNameFuel, genNameTry, hnot]
  | succ k ih =>
    intro fuel t n hk hall hnot
    obtain ⟨f, rfl⟩ : ∃ f, fuel = f + 1 := ⟨fuel - 1, by omega⟩
    have h0 : genNameCandidate toLower t n ∈ usedNames := by
      simpa [genNameTry] using hall 0 (Nat.succ_pos k)
    simp only [genNameFuel, h0, if_true, genNameTry]
    apply ih f _ _ (by omega)
    · intro j hj
      simpa [genNameTry] using hall (j + 1) (by omega)
    · simpa [genNameTry] using hnot

/-- Among the tries `1 .. len(usedNames) + 1` one is unused: they are pairwise
distinct and there are more of them than used names. -/
theorem exists_unused_try (toLower : Char → Char) (t : String) (n : Nat)
    (usedNames : List String) :
    ∃ k, k < usedNames.length + 2 ∧ genNameTry toLower k t n ∉ usedNames := by
  by_contra hcon
  push_neg at hcon
  let l := (List.range (usedNames.length + 1)).map (fun j => genNameTry toLower (j + 1) t n)
  have hnd : l.Nodup := by
    apply List.Nodup.map _ (List.nodup_range _)
    intro a b hab
    exact genNameTry_succ_injective toLower t n hab
  have hsub : l ⊆ usedNames := by
    intro x hx
    obtain ⟨j, hj, rfl⟩ := List.mem_map.1 hx
    exact hcon (j + 1) (by have := List.mem_range.1 hj; omega)
  have hlen := (List.subperm_of_subset hnd hsub).length_le
  simp [l] at hlen

/-- A depth bound of `len(usedNames) + 2` is enough: every larger bound gives
the same name, the one `genName` returns; it is non-empty and unused. -/
theorem genNameFuel_eq_genName (toLower : Char → Char) (t : String) (n : Nat)
    (usedNames : List String) :
    (∀ fuel, usedNames.length + 2 ≤ fuel →
      genNameFuel toLower fuel t n usedNames = some (genName toLower t n usedNames)) ∧
    genName toLower t n usedNames ≠ "" ∧ genName toLower t n usedNames ∉ usedNames := by
  classical
  have hex := exists_unused_try toLower t n usedNames
  let k := Nat.find hex
  have hk : k < usedNames.length + 2 ∧ genNameTry toLower k t n ∉ usedNames := Nat.find_spec hex
  have hmin : ∀ j, j < k → genNameTry toLower j t n ∈ usedNames := by
    intro j hj
    by_contra hc
    exact Nat.find_min hex hj ⟨by omega, hc⟩
  have hfuel : ∀ fuel, usedNames.length + 2 ≤ fuel →
      genNameFuel toLower fuel t n usedNames = some (genNameTry toLower k t n) := by
    intro fuel hf
    exact genNameFuel_eq_try toLower usedNames k fuel t n (by omega) hmin hk.2
  have hgen : genName toLower t n usedNames = genNameTry toLower k t n := by
    simp [genName, hfuel _ (le_refl _)]
  rw [hgen]
  exact ⟨hfuel, genNameTry_ne_empty toLower k t n, hk.2⟩

theorem genName_not_mem (toLower : Char → Char) (t : String) (n : Nat) (usedNames : List String) :
    genName toLower t n usedNames ∉ usedNames :=
  (genNameFuel_eq_genName toLower t n usedNames).2.2

/-- C10: for every type expression `t` and every finite set `usedNames`, the
recursion `genName(t, 0, usedNames)` terminates (every depth bound from
`len(usedNames) + 2` on gives the same result), and the name it returns is
non-empty and is not a member of `usedNames`. -/
theorem genName_terminates_fresh (toLower : Char → Char) (t : String) (usedNames : List String) :
    ∃ name : String,
      (∀ fuel, usedNames.length + 2 ≤ fuel →
        genNameFuel toLower fuel t 0 usedNames = some name) ∧
      genName toLower t 0 usedNames = name ∧ name ≠ "" ∧ name ∉ usedNames :=
  ⟨genName toLower t 0 usedNames, (genNameFuel_eq_genName toLower t 0 usedNames).1, rfl,
    (genNameFuel_eq_genName toLower t 0 usedNames).2.1,
    (genNameFuel_eq_genName toLower t 0 usedNames).2.2⟩

/-- C9 at its failing input: the second unnamed `context.Context` parameter is
named `c1`, not `ctx1`, and the second unnamed `error` result `e1`, not `err1`:
the retry passes the name just tried (`ctx`) in place of the type expression. -/
theorem genName_second_context_error :
    genName Char.toLower "context.Context" 0 ["ctx"] = "c1" ∧
    genName Char.toLower "error" 0 ["err"] = "e1" ∧
    "ctx1" ∉ ["ctx"] ∧ "err1" ∉ ["err"] := by
  decide


/-! ## The loops of `Parse` in closed form -/

theorem newParam_snd (toLower : Char → Char) (pwdPkg : String) (v : Var) (usedNames : List String) :
    (newParam toLower pwdPkg v usedNames).2 =
      (newParam toLower pwdPkg v usedNames).1.Name :: usedNames := rfl

theorem newParam_typ (toLower : Char → Char) (pwdPkg : String) (v : Var) (usedNames : List String) :
    (newParam toLower pwdPkg v usedNames).1.Typ = typeName pwdPkg v.Typ := rfl

theorem newParam_variadic (toLower : Char → Char) (pwdPkg : String) (v : Var)
    (usedNames : List String) : (newParam toLower pwdPkg v usedNames).1.Variadic = false := rfl

theorem newParam_name (toLower : Char → Char) (pwdPkg : String) (v : Var) (usedNames : List String) :
    (newParam toLower pwdPkg v usedNames).1.Name =
      if v.Name = "" then genName toLower (typeName pwdPkg v.Typ) 0 usedNames else v.Name := rfl

theorem markVariadic_name (len : Nat) (variadic : Bool) (i : Nat) (p : Param) :
    (markVariadic len variadic i p).Name = p.Name := by
  unfold markVariadic; split <;> rfl

theorem markVariadic_typ (len : Nat) (variadic : Bool) (i : Nat) (p : Param) :
    (markVariadic len variadic i p).Typ = p.Typ := by
  unfold markVariadic; split <;> rfl

theorem markVariadic_variadic (len : Nat) (variadic : Bool) (i : Nat) (p : Param) :
    (markVariadic len variadic i p).Variadic =
      (p.Variadic || (decide (i = len - 1) && variadic)) := by
  unfold markVariadic
  by_cases h1 : i = len - 1 <;> cases variadic <;> simp [h1]

theorem markVariadic_false (len : Nat) (i : Nat) (p : Param) :
    markVariadic len false i p = p := by
  simp [markVariadic]

theorem paramsLoop_cons (toLower : Char → Char) (pwdPkg : String) (len : Nat) (variadic : Bool)
    (i : Nat) (v : Var) (vs : List Var) (usedNames : List String) (m : Method) :
    paramsLoop toLower pwdPkg len variadic i (v :: vs) usedNames m =
      paramsLoop toLower pwdPkg len variadic (i + 1) vs
        ((newParam toLower pwdPkg v usedNames).1.Name :: usedNames)
        { (if i = 0 ∧ (markVariadic len variadic i (newParam toLower pwdPkg v usedNames).1).Typ =
              "context.Context"
            then { m with AcceptsContext := true } else m) with
          Params := (if i = 0 ∧
              (markVariadic len variadic i (newParam toLower pwdPkg v usedNames).1).Typ =
                "context.Context"
            then { m with AcceptsContext := true } else m).Params ++
              [markVariadic len variadic i (newParam toLower pwdPkg v usedNames).1] } := rfl

theorem resultsLoop_cons (toLower : Char → Char) (pwdPkg : String) (len : Nat)
    (i : Nat) (v : Var) (vs : List Var) (usedNames : List String) (m : Method) :
    resultsLoop toLower pwdPkg len i (v :: vs) usedNames m =
      resultsLoop toLower pwdPkg len (i + 1) vs
        ((newParam toLower pwdPkg v usedNames).1.Name :: usedNames)
        (if i = len - 1 ∧ isErrorType v.Typ = true
          then { m with Results := m.Results ++ [(newParam toLower pwdPkg v usedNames).1],
                        ReturnsError := true }
          else { m with Results := m.Results ++ [(newParam toLower pwdPkg v usedNames).1] }) := rfl

theorem paramsLoop_eq (toLower : Char → Char) (pwdPkg : String) (len : Nat) (variadic : Bool) :
    ∀ (vs : List Var) (i : Nat) (usedNames : List String) (m : Method),
      paramsLoop toLower pwdPkg len variadic i vs usedNames m =
        { m with
          Params := m.Params ++ paramList toLower pwdPkg len variadic i vs usedNames
          AcceptsContext := m.AcceptsContext || (decide (i = 0) && headIsContext pwdPkg vs) } := by
  intro vs
  induction vs with
  | nil => intro i usedNames m; cases m; simp [paramsLoop, paramList, headIsContext]
  | cons v vs ih =>
    intro i usedNames m
    rw [paramsLoop_cons, ih, markVariadic_typ, newParam_typ]
    cases m
    by_cases h0 : i = 0 <;> by_cases hc : typeName pwdPkg v.Typ = "context.Context" <;>
      simp [h0, hc, paramList, headIsContext]

theorem resultsLoop_eq (toLower : Char → Char) (pwdPkg : String) :
    ∀ (vs : List Var) (len i : Nat) (usedNames : List String) (m : Method),
      i + vs.length = len →
      resultsLoop toLower pwdPkg len i vs usedNames m =
        { m with
          Results := m.Results ++ paramList toLower pwdPkg len false i vs usedNames
          ReturnsError := m.ReturnsError || lastIsError vs } := by
  intro vs
  induction vs with
  | nil => intro len i usedNames m _; cases m; simp [resultsLoop, paramList, lastIsError]
  | cons v vs ih =>
    intro len i usedNames m hlen
    simp only [List.length_cons] at hlen
    rw [resultsLoop_cons, ih len (i + 1) _ _ (by omega)]
    cases m
    cases vs with
    | nil =>
      have hi : i = len - 1 := by simp at hlen; omega
      by_cases he : isErrorType v.Typ = true <;>
        simp [hi, he, lastIsError, paramList, markVariadic_false]
    | cons w ws =>
      have hi : i ≠ len - 1 := by simp at hlen; omega
      simp [hi, lastIsError, paramList, markVariadic_false]

theorem parseMethod_eq (toLower : Char → Char) (pwdPkg : String) (s : Selection) :
    parseMethod toLower pwdPkg s =
      { Name := s.Name
        Params := paramList toLower pwdPkg s.Params.length s.Variadic 0 s.Params []
        Results := paramList toLower pwdPkg s.Results.length false 0 s.Results []
        ReturnsError := lastIsError s.Results
        AcceptsContext := headIsContext pwdPkg s.Params } := by
  simp [parseMethod, paramsLoop_eq, resultsLoop_eq]

/-! ## The method-set and package loops in closed form -/

theorem isPrivate_eq_none {s : String} : isPrivate s = none ↔ s = "" := by
  unfold isPrivate
  constructor
  · intro h
    split at h
    · rename_i h0
      exact String.ext (by simpa using h0)
    · simp at h
  · rintro rfl
    rfl

theorem keptSelections_append (a b : List Selection) : ∀ methodCheck : List String,
    keptSelections methodCheck (a ++ b) =
      keptSelections methodCheck a ++ keptSelections (checkAfter methodCheck a) b := by
  induction a with
  | nil => intro mc; rfl
  | cons s a ih =>
    intro mc
    simp only [List.cons_append, keptSelections, checkAfter]
    split
    · exact ih mc
    · simp [ih]

theorem checkAfter_append (a b : List Selection) : ∀ methodCheck : List String,
    checkAfter methodCheck (a ++ b) = checkAfter (checkAfter methodCheck a) b := by
  induction a with
  | nil => intro mc; rfl
  | cons s a ih =>
    intro mc
    simp only [List.cons_append, checkAfter]
    split
    · exact ih mc
    · exact ih _

theorem methodSetLoop_eq (toLower : Char → Char) (pwdPkg : String) :
    ∀ (sels : List Selection) (t : WrappedType) (methodCheck : List String),
      methodSetLoop toLower pwdPkg sels (t, methodCheck) =
        if ∀ s ∈ sels, s.Name ≠ "" then
          some ({ t with Methods := t.Methods ++
                    (keptSelections methodCheck sels).map (parseMethod toLower pwdPkg) },
                checkAfter methodCheck sels)
        else none := by
  intro sels
  induction sels with
  | nil => intro t mc; cases t; simp [methodSetLoop, keptSelections, checkAfter]
  | cons s sels ih =>
    intro t mc
    simp only [methodSetLoop]
    split
    · rename_i hnone
      have : s.Name = "" := isPrivate_eq_none.1 hnone
      simp [this]
    · rename_i priv hpriv
      have hne : s.Name ≠ "" := by
        intro h
        rw [isPrivate_eq_none.2 h] at hpriv
        exact Option.noConfusion hpriv
      have hall : (∀ x ∈ s :: sels, x.Name ≠ "") ↔ ∀ x ∈ sels, x.Name ≠ "" := by
        simp [hne]
      by_cases hskip : priv = true ∨ s.Name ∈ mc
      · have hskip2 : isPrivate s.Name = some true ∨ s.Name ∈ mc := by
          rcases hskip with h | h
          · left; rw [hpriv, h]
          · right; exact h
        rw [if_pos hskip, ih]
        simp only [keptSelections, checkAfter, if_pos hskip2]
        by_cases hA : ∀ x ∈ sels, x.Name ≠ ""
        · rw [if_pos hA, if_pos (hall.2 hA)]
        · rw [if_neg hA, if_neg (fun h => hA (hall.1 h))]
      · have hskip2 : ¬ (isPrivate s.Name = some true ∨ s.Name ∈ mc) := by
          rintro (h | h)
          · rw [hpriv] at h
            exact hskip (Or.inl (Option.some.inj h))
          · exact hskip (Or.inr h)
        rw [if_neg hskip, ih]
        simp only [keptSelections, checkAfter, if_neg hskip2]
        by_cases hA : ∀ x ∈ sels, x.Name ≠ ""
        · rw [if_pos hA, if_pos (hall.2 hA)]
          simp
        · rw [if_neg hA, if_neg (fun h => hA (hall.1 h))]

theorem packagesLoop_eq (toLower : Char → Char) (pwdPkg : String) (name : String) :
    ∀ (pkgs : List LoadedPackage) (t : WrappedType) (methodCheck : List String),
      packagesLoop toLower pwdPkg name pkgs (t, methodCheck) =
        if ∀ s ∈ scannedSelections name pkgs, s.Name ≠ "" then
          some ({ Typ := t.Typ, PwdPkg := t.PwdPkg, Pkg := finalPkg t.Pkg pkgs,
                  Methods := t.Methods ++
                    (keptSelections methodCheck (scannedSelections name pkgs)).map
                      (parseMethod toLower pwdPkg),
                  IsInterface := finalIsInterface name t.IsInterface pkgs },
                checkAfter methodCheck (scannedSelections name pkgs))
        else none := by
  intro pkgs
  induction pkgs with
  | nil =>
    intro t mc
    cases t
    simp [packagesLoop, scannedSelections, keptSelections, checkAfter, finalPkg,
      finalIsInterface]
  | cons pkg pkgs ih =>
    intro t mc
    simp only [packagesLoop, scannedSelections, finalPkg, finalIsInterface]
    split
    · rw [ih]
    · rename_i l hl
      simp only [methodSetLoop_eq]
      by_cases hV : ∀ s ∈ l.ValueMethods, s.Name ≠ ""
      · rw [if_pos hV]
        simp only
        by_cases hP : ∀ s ∈ l.PointerMethods, s.Name ≠ ""
        · rw [methodSetLoop_eq, if_pos hP]
          simp only
          rw [ih]
          by_cases hR : ∀ s ∈ scannedSelections name pkgs, s.Name ≠ ""
          · have hall : ∀ s ∈ l.ValueMethods ++ l.PointerMethods ++ scannedSelections name pkgs,
                s.Name ≠ "" := by
              intro s hs
              simp only [List.mem_append] at hs
              rcases hs with (hs | hs) | hs
              · exact hV s hs
              · exact hP s hs
              · exact hR s hs
            rw [if_pos hR, if_pos hall]
            simp [keptSelections_append, checkAfter_append, List.append_assoc]
          · have hall : ¬ ∀ s ∈ l.ValueMethods ++ l.PointerMethods ++ scannedSelections name pkgs,
                s.Name ≠ "" := fun h => hR (fun s hs => h s (by simp [hs]))
            rw [if_neg hR, if_neg hall]
        · have hall : ¬ ∀ s ∈ l.ValueMethods ++ l.PointerMethods ++ scannedSelections name pkgs,
              s.Name ≠ "" := fun h => hP (fun s hs => h s (by simp [hs]))
          rw [methodSetLoop_eq, if_neg hP, if_neg hall]
      · have hall : ¬ ∀ s ∈ l.ValueMethods ++ l.PointerMethods ++ scannedSelections name pkgs,
            s.Name ≠ "" := fun h => hV (fun s hs => h s (by simp [hs]))
        rw [if_neg hV, if_neg hall]

/-- The result of `Parse` in closed form: it fails exactly when a visited method
set holds an entry with an empty name; otherwise the methods are the entries
that pass the name checks, in the order of the visit. -/
theorem Parse_eq (toLower : Char → Char) (pwdPkg : String) (pkgs : List LoadedPackage)
    (name : String) :
    Parse toLower pwdPkg pkgs name =
      if ∀ s ∈ scannedSelections name pkgs, s.Name ≠ "" then
        some { Typ := name, PwdPkg := pwdPkg, Pkg := finalPkg "" pkgs,
               Methods := (keptSelections [] (scannedSelections name pkgs)).map
                 (parseMethod toLower pwdPkg),
               IsInterface := finalIsInterface name false pkgs }
      else none := by
  unfold Parse
  rw [packagesLoop_eq]
  split <;> simp

theorem Parse_methods {toLower : Char → Char} {pwdPkg : String} {pkgs : List LoadedPackage}
    {name : String} {ty : WrappedType} (h : Parse toLower pwdPkg pkgs name = some ty) :
    ty.Methods =
      (keptSelections [] (scannedSelections name pkgs)).map (parseMethod toLower pwdPkg) := by
  rw [Parse_eq] at h
  split at h
  · cases h; rfl
  · exact Option.noConfusion h

theorem keptSelections_sublist : ∀ (sels : List Selection) (methodCheck : List String),
    ∀ s ∈ keptSelections methodCheck sels,
      s ∈ sels ∧ isPrivate s.Name ≠ some true ∧ s.Name ∉ methodCheck := by
  intro sels
  induction sels with
  | nil => intro mc s hs; simp [keptSelections] at hs
  | cons x sels ih =>
    intro mc s hs
    simp only [keptSelections] at hs
    split at hs
    · obtain ⟨h1, h2, h3⟩ := ih mc s hs
      exact ⟨List.mem_cons_of_mem _ h1, h2, h3⟩
    · rename_i hx
      push_neg at hx
      rcases List.mem_cons.1 hs with rfl | hs
      · exact ⟨List.mem_cons_self _ _, hx.1, hx.2⟩
      · obtain ⟨h1, h2, h3⟩ := ih _ s hs
        exact ⟨List.mem_cons_of_mem _ h1, h2, fun hc => h3 (List.mem_cons_of_mem _ hc)⟩

theorem keptSelections_nodup : ∀ (sels : List Selection) (methodCheck : List String),
    ((keptSelections methodCheck sels).map Selection.Name).Nodup := by
  intro sels
  induction sels with
  | nil => intro mc; simp [keptSelections]
  | cons x sels ih =>
    intro mc
    simp only [keptSelections]
    split
    · exact ih mc
    · simp only [List.map_cons, List.nodup_cons]
      refine ⟨?_, ih _⟩
      intro hmem
      obtain ⟨s, hs, hname⟩ := List.mem_map.1 hmem
      have := (keptSelections_sublist sels _ s hs).2.2
      exact this (by rw [hname]; exact List.mem_cons_self _ _)

theorem keptSelections_complete : ∀ (sels : List Selection) (methodCheck : List String),
    ∀ s ∈ sels, isPrivate s.Name ≠ some true →
      s.Name ∈ methodCheck ∨ s.Name ∈ (keptSelections methodCheck sels).map Selection.Name := by
  intro sels
  induction sels with
  | nil => intro mc s hs; simp at hs
  | cons x sels ih =>
    intro mc s hs hp
    simp only [keptSelections]
    rcases List.mem_cons.1 hs with rfl | hs
    · split
      · rename_i hx
        rcases hx with hx | hx
        · exact absurd hx hp
        · exact Or.inl hx
      · right; simp
    · split
      · exact ih mc s hs hp
      · rcases ih (x.Name :: mc) s hs hp with h | h
        · rcases List.mem_cons.1 h with h | h
          · right; simp [h]
          · exact Or.inl h
        · right
          simp only [List.map_cons, List.mem_cons]
          exact Or.inr h

theorem parseMethod_name (toLower : Char → Char) (pwdPkg : String) (s : Selection) :
    (parseMethod toLower pwdPkg s).Name = s.Name := by
  rw [parseMethod_eq]

theorem Parse_method_names {toLower : Char → Char} {pwdPkg : String}
    {pkgs : List LoadedPackage} {name : String} {ty : WrappedType}
    (h : Parse toLower pwdPkg pkgs name = some ty) :
    ty.Methods.map Method.Name =
      (keptSelections [] (scannedSelections name pkgs)).map Selection.Name := by
  rw [Parse_methods h, List.map_map]
  apply List.map_congr_left
  intro s _
  exact parseMethod_name toLower pwdPkg s

/-- Every method of the result is built from a visited entry that passed the
name checks. -/
theorem Parse_method_origin {toLower : Char → Char} {pwdPkg : String}
    {pkgs : List LoadedPackage} {name : String} {ty : WrappedType}
    (h : Parse toLower pwdPkg pkgs name = some ty) {m : Method} (hm : m ∈ ty.Methods) :
    ∃ s ∈ scannedSelections name pkgs, isPrivate s.Name = some false ∧
      m = parseMethod toLower pwdPkg s := by
  have hne : ∀ s ∈ scannedSelections name pkgs, s.Name ≠ "" := by
    by_contra hc
    rw [Parse_eq, if_neg hc] at h
    exact Option.noConfusion h
  rw [Parse_methods h] at hm
  obtain ⟨s, hs, rfl⟩ := List.mem_map.1 hm
  obtain ⟨h1, h2, _⟩ := keptSelections_sublist _ _ s hs
  refine ⟨s, h1, ?_, rfl⟩
  have h3 : isPrivate s.Name ≠ none := fun hc => hne s h1 (isPrivate_eq_none.1 hc)
  cases hp : isPrivate s.Name with
  | none => exact absurd hp h3
  | some b =>
    cases b with
    | false => rfl
    | true => exact absurd hp h2

/-! ## The normalized parameters -/

theorem paramList_length (toLower : Char → Char) (pwdPkg : String) (len : Nat) (variadic : Bool) :
    ∀ (vs : List Var) (i : Nat) (usedNames : List String),
      (paramList toLower pwdPkg len variadic i vs usedNames).length = vs.length := by
  intro vs
  induction vs with
  | nil => intro i u; rfl
  | cons v vs ih => intro i u; simp [paramList, ih]

theorem paramList_typs (toLower : Char → Char) (pwdPkg : String) (len : Nat) (variadic : Bool) :
    ∀ (vs : List Var) (i : Nat) (usedNames : List String),
      (paramList toLower pwdPkg len variadic i vs usedNames).map Param.Typ =
        vs.map (fun v => typeName pwdPkg v.Typ) := by
  intro vs
  induction vs with
  | nil => intro i u; rfl
  | cons v vs ih => intro i u; simp [paramList, ih, markVariadic_typ, newParam_typ]

/-- An explicitly named list keeps its names. -/
theorem paramList_names_named (toLower : Char → Char) (pwdPkg : String) (len : Nat)
    (variadic : Bool) :
    ∀ (vs : List Var) (i : Nat) (usedNames : List String), (∀ v ∈ vs, v.Name ≠ "") →
      (paramList toLower pwdPkg len variadic i vs usedNames).map Param.Name =
        vs.map Var.Name := by
  intro vs
  induction vs with
  | nil => intro i u _; rfl
  | cons v vs ih =>
    intro i u h
    have hv : v.Name ≠ "" := h v (List.mem_cons_self _ _)
    simp [paramList, markVariadic_name, newParam_name, hv,
      ih _ _ (fun w hw => h w (List.mem_cons_of_mem _ hw))]

/-- The names synthesized for an unnamed list are pairwise distinct and avoid
the names used before. -/
theorem paramList_names_unnamed (toLower : Char → Char) (pwdPkg : String) (len : Nat)
    (variadic : Bool) :
    ∀ (vs : List Var) (i : Nat) (usedNames : List String), (∀ v ∈ vs, v.Name = "") →
      ((paramList toLower pwdPkg len variadic i vs usedNames).map Param.Name).Nodup ∧
      ∀ x ∈ (paramList toLower pwdPkg len variadic i vs usedNames).map Param.Name,
        x ∉ usedNames := by
  intro vs
  induction vs with
  | nil => intro i u _; simp [paramList]
  | cons v vs ih =>
    intro i u h
    have hv : v.Name = "" := h v (List.mem_cons_self _ _)
    have hname : (newParam toLower pwdPkg v u).1.Name =
        genName toLower (typeName pwdPkg v.Typ) 0 u := by
      rw [newParam_name, if_pos hv]
    obtain ⟨hnd, hfresh⟩ := ih (i + 1) ((newParam toLower pwdPkg v u).1.Name :: u)
      (fun w hw => h w (List.mem_cons_of_mem _ hw))
    simp only [paramList, List.map_cons, markVariadic_name, List.nodup_cons, List.mem_cons]
    refine ⟨⟨?_, hnd⟩, ?_⟩
    · intro hmem
      exact hfresh _ hmem (List.mem_cons_self _ _)
    · rintro x (rfl | hx)
      · rw [hname]
        exact genName_not_mem toLower _ 0 u
      · exact fun hxu => hfresh x hx (List.mem_cons_of_mem _ hxu)

theorem paramList_names_nodup (toLower : Char → Char) (pwdPkg : String) (len : Nat)
    (variadic : Bool) (vs : List Var) (i : Nat) (usedNames : List String)
    (h : DistinctExplicitNames vs) :
    ((paramList toLower pwdPkg len variadic i vs usedNames).map Param.Name).Nodup := by
  rcases h with h | ⟨h1, h2⟩
  · exact (paramList_names_unnamed toLower pwdPkg len variadic vs i usedNames h).1
  · rw [paramList_names_named toLower pwdPkg len variadic vs i usedNames h1]
    exact h2

/-- The variadic mark: with `len` the length of the whole list, the entry at
offset `j` is marked exactly when it is the last one and the list is variadic. -/
theorem paramList_variadic (toLower : Char → Char) (pwdPkg : String) (len : Nat)
    (variadic : Bool) :
    ∀ (vs : List Var) (i : Nat) (usedNames : List String), i + vs.length = len →
      ∀ (j : Nat) (p : Param),
        (paramList toLower pwdPkg len variadic i vs usedNames)[j]? = some p →
        (p.Variadic = true ↔ (j + 1 = vs.length ∧ variadic = true)) := by
  intro vs
  induction vs with
  | nil => intro i u _ j p hp; simp [paramList] at hp
  | cons v vs ih =>
    intro i u hlen j p hp
    simp only [List.length_cons] at hlen
    cases j with
    | zero =>
      simp only [paramList, List.getElem?_cons_zero, Option.some.injEq] at hp
      subst hp
      rw [markVariadic_variadic, newParam_variadic]
      simp only [Bool.false_or, Bool.and_eq_true, decide_eq_true_eq, List.length_cons]
      constructor
      · rintro ⟨h1, h2⟩; exact ⟨by omega, h2⟩
      · rintro ⟨h1, h2⟩; exact ⟨by omega, h2⟩
    | succ j =>
      simp only [paramList, List.getElem?_cons_succ] at hp
      have := ih (i + 1) _ (by omega) j p hp
      rw [this]
      simp

theorem paramList_not_variadic (toLower : Char → Char) (pwdPkg : String) (len : Nat) :
    ∀ (vs : List Var) (i : Nat) (usedNames : List String),
      ∀ p ∈ paramList toLower pwdPkg len false i vs usedNames, p.Variadic = false := by
  intro vs
  induction vs with
  | nil => intro i u p hp; simp [paramList] at hp
  | cons v vs ih =>
    intro i u p hp
    simp only [paramList, markVariadic_false, List.mem_cons] at hp
    rcases hp with rfl | hp
    · rfl
    · exact ih _ _ p hp

theorem paramList_append_singleton (toLower : Char → Char) (pwdPkg : String) (len : Nat)
    (variadic : Bool) (v : Var) :
    ∀ (init : List Var) (i : Nat) (usedNames : List String),
      ∃ used : List String,
        paramList toLower pwdPkg len variadic i (init ++ [v]) usedNames =
          paramList toLower pwdPkg len variadic i init usedNames ++
            [markVariadic len variadic (i + init.length) (newParam toLower pwdPkg v used).1] := by
  intro init
  induction init with
  | nil => intro i u; exact ⟨u, by simp [paramList]⟩
  | cons w init ih =>
    intro i u
    obtain ⟨used, h⟩ := ih (i + 1) ((newParam toLower pwdPkg w u).1.Name :: u)
    refine ⟨used, ?_⟩
    have e : i + 1 + init.length = i + (init.length + 1) := by omega
    rw [e] at h
    show markVariadic len variadic i (newParam toLower pwdPkg w u).1 ::
        paramList toLower pwdPkg len variadic (i + 1) (init ++ [v])
          ((newParam toLower pwdPkg w u).1.Name :: u) = _
    rw [h]
    simp [paramList]

theorem typeName_slice (pwdPkg : String) (elem : GoType) :
    typeName pwdPkg (.slice elem) = "[]" ++ typeName pwdPkg elem := by
  simp [typeName, typeString]

theorem lastIsError_iff (vs : List Var) :
    lastIsError vs = true ↔ ∃ v, vs.getLast? = some v ∧ isErrorType v.Typ = true := by
  induction vs with
  | nil => simp [lastIsError]
  | cons v vs ih =>
    cases vs with
    | nil => simp [lastIsError]
    | cons w ws =>
      simp only [lastIsError]
      rw [ih]
      simp [List.getLast?_cons_cons]

theorem headIsContext_iff (pwdPkg : String) (vs : List Var) :
    headIsContext pwdPkg vs = true ↔
      ∃ v rest, vs = v :: rest ∧ typeName pwdPkg v.Typ = "context.Context" := by
  cases vs with
  | nil => simp [headIsContext]
  | cons v vs => simp [headIsContext]

theorem isErrorType_iff (t : GoType) :
    isErrorType t = true ↔
      t.String = "error" ∧ t.Underlying.String = "interface\x7bError() string\x7d" := by
  simp [isErrorType]

theorem finalPkg_eq : ∀ (pkgs : List LoadedPackage) (init : String),
    finalPkg init pkgs = (pkgs.getLast?.map LoadedPackage.Name).getD init := by
  intro pkgs
  induction pkgs with
  | nil => intro init; rfl
  | cons p pkgs ih =>
    intro init
    cases pkgs with
    | nil => simp [finalPkg]
    | cons q qs =>
      rw [finalPkg, ih, List.getLast?_cons_cons]
      rw [List.getLast?_eq_getLast _ (List.cons_ne_nil q qs)]
      rfl

theorem scannedSelections_undeclared (name : String) :
    ∀ pkgs : List LoadedPackage, (∀ pkg ∈ pkgs, pkg.Lookup name = none) →
      scannedSelections name pkgs = [] := by
  intro pkgs
  induction pkgs with
  | nil => intro _; rfl
  | cons p pkgs ih =>
    intro h
    simp only [scannedSelections, h p (List.mem_cons_self _ _)]
    exact ih (fun q hq => h q (List.mem_cons_of_mem _ hq))

theorem finalIsInterface_undeclared (name : String) (init : Bool) :
    ∀ pkgs : List LoadedPackage, (∀ pkg ∈ pkgs, pkg.Lookup name = none) →
      finalIsInterface name init pkgs = init := by
  intro pkgs
  induction pkgs with
  | nil => intro _; rfl
  | cons p pkgs ih =>
    intro h
    simp only [finalIsInterface, h p (List.mem_cons_self _ _)]
    exact ih (fun q hq => h q (List.mem_cons_of_mem _ hq))

/-! ## Name uniqueness (C1, C2) -/

/-- C1, as stated, fails: the method `Put(_ int, _ string)` resolves to two
parameters both named `_`. -/
theorem parse_blank_names_repeat :
    Parse Char.toLower "main" [storePackage] "Sink" = some sinkResult ∧
    putMethod ∈ sinkResult.Methods ∧
    putMethod.Params.map Param.Name = ["_", "_"] ∧
    ¬ (putMethod.Params.map Param.Name).Nodup := by
  decide

/-- C1, amended: the methods of the Type returned by Parse are the methods built
from the visited entries that pass the name checks, and for such an entry whose
parameter list and result list are each either entirely unnamed or entirely
named with pairwise distinct names (no repeated blank `_`), the names of the
Params are pairwise distinct and the names of the Results are pairwise
distinct. -/
theorem parse_names_distinct (toLower : Char → Char) (pwdPkg : String)
    (pkgs : List LoadedPackage) (name : String) (ty : WrappedType)
    (h : Parse toLower pwdPkg pkgs name = some ty) (s : Selection)
    (hs : s ∈ keptSelections [] (scannedSelections name pkgs))
    (hP : DistinctExplicitNames s.Params) (hR : DistinctExplicitNames s.Results) :
    (∀ m ∈ ty.Methods, ∃ e ∈ keptSelections [] (scannedSelections name pkgs),
      m = parseMethod toLower pwdPkg e) ∧
    parseMethod toLower pwdPkg s ∈ ty.Methods ∧
    ((parseMethod toLower pwdPkg s).Params.map Param.Name).Nodup ∧
    ((parseMethod toLower pwdPkg s).Results.map Param.Name).Nodup := by
  have hM := Parse_methods h
  refine ⟨?_, ?_, ?_, ?_⟩
  · intro m hm
    rw [hM] at hm
    obtain ⟨e, he, rfl⟩ := List.mem_map.1 hm
    exact ⟨e, he, rfl⟩
  · rw [hM]
    exact List.mem_map_of_mem _ hs
  · rw [parseMethod_eq]
    exact paramList_names_nodup toLower pwdPkg _ _ _ _ _ hP
  · rw [parseMethod_eq]
    exact paramList_names_nodup toLower pwdPkg _ _ _ _ _ hR

/-- Witness of C1 amended: the method `Pair(string, string) (error, error)` of
`Sink` gets the parameter names `s`, `s1` and the result names `err`, `e1`. -/
theorem parse_names_distinct_witness :
    (∀ m ∈ sinkResult.Methods,
      ∃ e ∈ keptSelections [] (scannedSelections "Sink" [storePackage]),
        m = parseMethod Char.toLower "main" e) ∧
    parseMethod Char.toLower "main" pairSelection ∈ sinkResult.Methods ∧
    ((parseMethod Char.toLower "main" pairSelection).Params.map Param.Name).Nodup ∧
    ((parseMethod Char.toLower "main" pairSelection).Results.map Param.Name).Nodup :=
  parse_names_distinct Char.toLower "main" [storePackage] "Sink" sinkResult (by decide)
    pairSelection (List.Mem.head _) (Or.inl (by decide)) (Or.inl (by decide))

/-- C2, as stated, fails: the unexported method `helper` is exposed by both
the value form and the pointer form method set of `Tool`, and no Method of the
result is named `helper`: Parse leaves it out, so it does not appear exactly
once. -/
theorem parse_unexported_absent :
    "helper" ∈ toolObject.ValueMethods.map Selection.Name ∧
    "helper" ∈ toolObject.PointerMethods.map Selection.Name ∧
    storePackage.Lookup "Tool" = some toolObject ∧
    (Parse Char.toLower "main" [storePackage] "Tool").map
        (fun ty => (ty.Methods.map Method.Name).count "helper") = some 0 := by
  refine ⟨by decide, by decide, rfl, by decide⟩

/-- C2, amended: the Methods of the Type returned by Parse have pairwise
distinct names: a method of a visited method set, whether it is exposed by one
method set, by both, or by several loaded packages, appears at most once, and
exactly once when its name passes the name filter of Parse. -/
theorem parse_method_names_distinct (toLower : Char → Char) (pwdPkg : String)
    (pkgs : List LoadedPackage) (name : String) (ty : WrappedType)
    (h : Parse toLower pwdPkg pkgs name = some ty) :
    (ty.Methods.map Method.Name).Nodup ∧
    (∀ s ∈ scannedSelections name pkgs, (ty.Methods.map Method.Name).count s.Name ≤ 1) ∧
    ∀ s ∈ scannedSelections name pkgs, isPrivate s.Name = some false →
      (ty.Methods.map Method.Name).count s.Name = 1 := by
  have hN := Parse_method_names h
  have hnd : (ty.Methods.map Method.Name).Nodup := by
    rw [hN]; exact keptSelections_nodup _ _
  refine ⟨hnd, ?_, ?_⟩
  · intro s _
    exact List.nodup_iff_count_le_one.1 hnd s.Name
  · intro s hs hp
    have hmem : s.Name ∈ ty.Methods.map Method.Name := by
      rw [hN]
      rcases keptSelections_complete _ [] s hs (by rw [hp]; decide) with h0 | h0
      · simp at h0
      · exact h0
    exact List.count_eq_one_of_mem hnd hmem

/-- Witness of C2 amended: `Get` is in both method sets of `Counter` and appears
once. -/
theorem parse_method_names_distinct_witness :
    (counterResult.Methods.map Method.Name).Nodup ∧
    (∀ s ∈ scannedSelections "Counter" [storePackage],
      (counterResult.Methods.map Method.Name).count s.Name ≤ 1) ∧
    (∀ s ∈ scannedSelections "Counter" [storePackage], isPrivate s.Name = some false →
      (counterResult.Methods.map Method.Name).count s.Name = 1) ∧
    (scannedSelections "Counter" [storePackage]).map Selection.Name = ["Get", "Get", "Inc"] ∧
    counterResult.Methods.map Method.Name = ["Get", "Inc"] :=
  ⟨(parse_method_names_distinct Char.toLower "main" [storePackage] "Counter" counterResult
      (by decide)).1,
    (parse_method_names_distinct Char.toLower "main" [storePackage] "Counter" counterResult
      (by decide)).2.1,
    (parse_method_names_distinct Char.toLower "main" [storePackage] "Counter" counterResult
      (by decide)).2.2, by decide, by decide⟩

/-! ## The exported-name filter (C3) -/

/-- C3 at its failing input: of the methods `Run`, `Ḃuild`, `_helper`, `helper`
and `éval` of `Tool`, Parse returns `Run`, `_helper` and `éval`: the unexported
`_helper` and `éval` appear and the exported `Ḃuild` does not, because
`isPrivate` tests the first byte of the name for a lower-case letter. -/
theorem parse_tool_methods :
    (Parse Char.toLower "main" [storePackage] "Tool").map
        (fun ty => ty.Methods.map Method.Name) = some ["Run", "_helper", "éval"] ∧
    isPrivate "_helper" = some false ∧ isPrivate "éval" = some false ∧
    isPrivate "Ḃuild" = some true ∧ isPrivate "helper" = some true := by
  decide

/-! ## A type name that is not declared (C4) -/

/-- C4, as stated, fails: for a name no loaded package declares, Parse returns a
Type, with the requested name and an empty method list. -/
theorem parse_missing_returns_type :
    (∀ pkg ∈ [storePackage], pkg.Lookup "Missing" = none) ∧
    (Parse Char.toLower "main" [storePackage] "Missing").map
        (fun ty => (ty.Typ, ty.PwdPkg, ty.Methods, ty.IsInterface)) =
      some ("Missing", "main", [], false) ∧
    (Parse Char.toLower "main" [] "Missing").map
        (fun ty => (ty.Typ, ty.PwdPkg, ty.Methods, ty.IsInterface)) =
      some ("Missing", "main", [], false) :=
  ⟨fun pkg hp => by rw [List.mem_singleton.1 hp]; rfl, by decide, by decide⟩

/-- C4, amended: when the requested type name is declared in none of the loaded
packages, Parse signals no failure: it returns a Type whose Type field is the
requested name and whose PwdPkg is the given one, with IsInterface false and an
empty method list. -/
theorem parse_undeclared (toLower : Char → Char) (pwdPkg : String)
    (pkgs : List LoadedPackage) (name : String)
    (h : ∀ pkg ∈ pkgs, pkg.Lookup name = none) :
    ∃ ty, Parse toLower pwdPkg pkgs name = some ty ∧ ty.Typ = name ∧ ty.PwdPkg = pwdPkg ∧
      ty.Methods = [] ∧ ty.IsInterface = false := by
  rw [Parse_eq, scannedSelections_undeclared name pkgs h,
    finalIsInterface_undeclared name false pkgs h]
  have hall : ∀ s ∈ ([] : List Selection), s.Name ≠ "" := fun s hs => absurd hs (List.not_mem_nil s)
  rw [if_pos hall]
  exact ⟨_, rfl, rfl, rfl, rfl, rfl⟩

/-- Witness of C4 amended: the name `Missing` in the package `store`. -/
theorem parse_undeclared_witness :
    ∃ ty, Parse Char.toLower "main" [storePackage] "Missing" = some ty ∧ ty.Typ = "Missing" ∧
      ty.PwdPkg = "main" ∧ ty.Methods = [] ∧ ty.IsInterface = false :=
  parse_undeclared Char.toLower "main" [storePackage] "Missing"
    (fun pkg hp => by rw [List.mem_singleton.1 hp]; rfl)

/-! ## Error and context classification (C5, C6) -/

/-- C5, as stated, fails: the result type `MyError` of `Check() MyError` has the
same underlying interface as `error`, yet ReturnsError is false, because its
name is rendered `example.com/store.MyError`, not `error`. -/
theorem parse_local_error_not_classified :
    (Parse Char.toLower "main" [storePackage] "Checker").map
        (fun ty => ty.Methods.map (fun m => (m.Name, m.ReturnsError))) =
      some [("Check", false)] ∧
    checkSelection.Results.map (fun v => v.Typ.Underlying.String) =
      ["interface\x7bError() string\x7d"] ∧
    checkSelection.Results.map (fun v => v.Typ.String) = ["example.com/store.MyError"] ∧
    errorType.Underlying.String = "interface\x7bError() string\x7d" := by
  decide

/-- C5, amended: for every Method produced by Parse, built from the method-set
entry `s`, ReturnsError is true if and only if the raw signature has at least
one result and the type `t` of the last result is rendered `error` by
`t.String()` and its underlying type is rendered `interface{Error() string}`. -/
theorem parse_returns_error_iff (toLower : Char → Char) (pwdPkg : String)
    (pkgs : List LoadedPackage) (name : String) (ty : WrappedType)
    (h : Parse toLower pwdPkg pkgs name = some ty) (m : Method) (hm : m ∈ ty.Methods) :
    ∃ s ∈ scannedSelections name pkgs, m = parseMethod toLower pwdPkg s ∧
      (m.ReturnsError = true ↔
        ∃ v, s.Results.getLast? = some v ∧ v.Typ.String = "error" ∧
          v.Typ.Underlying.String = "interface\x7bError() string\x7d") := by
  obtain ⟨s, hs, _, rfl⟩ := Parse_method_origin h hm
  refine ⟨s, hs, rfl, ?_⟩
  rw [parseMethod_eq]
  simp only [lastIsError_iff, isErrorType_iff]

/-- Witness of C5 amended: `Fetch` of `Store` returns the universe `error`. -/
theorem parse_returns_error_iff_witness :
    ∃ s ∈ scannedSelections "Store" [storePackage],
      fetchMethod = parseMethod Char.toLower "main" s ∧
      (fetchMethod.ReturnsError = true ↔
        ∃ v, s.Results.getLast? = some v ∧ v.Typ.String = "error" ∧
          v.Typ.Underlying.String = "interface\x7bError() string\x7d") :=
  parse_returns_error_iff Char.toLower "main" [storePackage] "Store" storeResult
    (by decide) fetchMethod (by decide)

/-- C6: for every Method produced by Parse, built from the method-set entry `s`,
AcceptsContext is true if and only if the method has at least one parameter and
the rendered type of its first parameter, which is the Type stored in the first
Param, equals `context.Context`. -/
theorem parse_accepts_context_iff (toLower : Char → Char) (pwdPkg : String)
    (pkgs : List LoadedPackage) (name : String) (ty : WrappedType)
    (h : Parse toLower pwdPkg pkgs name = some ty) (m : Method) (hm : m ∈ ty.Methods) :
    ∃ s ∈ scannedSelections name pkgs, m = parseMethod toLower pwdPkg s ∧
      (m.AcceptsContext = true ↔
        ∃ v rest, s.Params = v :: rest ∧ typeName pwdPkg v.Typ = "context.Context") ∧
      (m.AcceptsContext = true ↔
        ∃ p rest, m.Params = p :: rest ∧ p.Typ = "context.Context") := by
  obtain ⟨s, hs, _, rfl⟩ := Parse_method_origin h hm
  refine ⟨s, hs, rfl, ?_, ?_⟩
  · rw [parseMethod_eq]
    exact headIsContext_iff pwdPkg s.Params
  · rw [parseMethod_eq]
    simp only
    rw [headIsContext_iff]
    cases hps : s.Params with
    | nil => simp [paramList]
    | cons v vs =>
      simp [paramList, markVariadic_typ, newParam_typ]

/-- Witness of C6: `Fetch(ctx context.Context, id string) (Item, error)` yields
true and `Len() int` yields false. -/
theorem parse_accepts_context_iff_witness :
    (∃ s ∈ scannedSelections "Store" [storePackage],
      fetchMethod = parseMethod Char.toLower "main" s ∧
      (fetchMethod.AcceptsContext = true ↔
        ∃ v rest, s.Params = v :: rest ∧ typeName "main" v.Typ = "context.Context") ∧
      (fetchMethod.AcceptsContext = true ↔
        ∃ p rest, fetchMethod.Params = p :: rest ∧ p.Typ = "context.Context")) ∧
    Parse Char.toLower "main" [storePackage] "Store" = some storeResult ∧
    storeResult.Methods.map (fun m => (m.Name, m.AcceptsContext)) =
      [("Fetch", true), ("Len", false)] :=
  ⟨parse_accepts_context_iff Char.toLower "main" [storePackage] "Store" storeResult
    (by decide) fetchMethod (by decide), by decide, by decide⟩

/-! ## Variadic parameters (C7, C8) -/

/-- C7, as stated, fails: for `Write(parts ...string) (int, error)` the Type
stored in the final Param is the slice form `[]string`, not the element type
`string`. -/
theorem parse_variadic_type_is_slice :
    Parse Char.toLower "main" [storePackage] "Writer" = some writerResult ∧
    writerResult.Methods.map (fun m => m.Params.map (fun p => (p.Typ, p.Variadic))) =
      [[("[]string", true)]] ∧
    typeName "main" (.basic "string") = "string" ∧
    ("[]string" : String) ≠ "string" := by
  decide

/-- C7, amended: for every visited entry that passes the name checks and has a
variadic signature whose final parameter has the slice type `[]E`, the method
Parse builds for it is in the result, and the Type string stored in its final
Param is the slice form: `[]` followed by the rendering of `E` (e.g. `[]string`
for `Write(parts ...string)`), with Variadic true. -/
theorem parse_variadic_slice_type (toLower : Char → Char) (pwdPkg : String)
    (pkgs : List LoadedPackage) (name : String) (ty : WrappedType)
    (h : Parse toLower pwdPkg pkgs name = some ty) (s : Selection)
    (hs : s ∈ keptSelections [] (scannedSelections name pkgs))
    (init : List Var) (paramName : String) (elem : GoType)
    (hv : s.Variadic = true) (hp : s.Params = init ++ [⟨paramName, .slice elem⟩]) :
    parseMethod toLower pwdPkg s ∈ ty.Methods ∧
    ∃ p, (parseMethod toLower pwdPkg s).Params.getLast? = some p ∧
      p.Typ = "[]" ++ typeName pwdPkg elem ∧ p.Variadic = true := by
  refine ⟨?_, ?_⟩
  · rw [Parse_methods h]
    exact List.mem_map_of_mem _ hs
  · rw [parseMethod_eq]
    simp only
    rw [hp, hv]
    obtain ⟨used, hu⟩ := paramList_append_singleton toLower pwdPkg
      (init ++ [(⟨paramName, .slice elem⟩ : Var)]).length true ⟨paramName, .slice elem⟩ init 0 []
    rw [hu]
    refine ⟨_, List.getLast?_concat _, ?_, ?_⟩
    · rw [markVariadic_typ, newParam_typ, typeName_slice]
    · rw [markVariadic_variadic]
      simp

/-- Witness of C7 amended: `Write(parts ...string)` of `Writer`. -/
theorem parse_variadic_slice_type_witness :
    parseMethod Char.toLower "main" writeSelection ∈ writerResult.Methods ∧
    ∃ p, (parseMethod Char.toLower "main" writeSelection).Params.getLast? = some p ∧
      p.Typ = "[]" ++ typeName "main" (.basic "string") ∧ p.Variadic = true :=
  parse_variadic_slice_type Char.toLower "main" [storePackage] "Writer" writerResult
    (by decide) writeSelection (List.Mem.head _) [] "parts" (.basic "string") rfl rfl

/-- C8: for every Method produced by Parse, built from the method-set entry `s`,
the Params correspond one to one to the parameters of the raw signature, a
Param has Variadic true if and only if it is the final parameter and the raw
signature is variadic, and every Param in Results has Variadic false. -/
theorem parse_variadic_flag_iff (toLower : Char → Char) (pwdPkg : String)
    (pkgs : List LoadedPackage) (name : String) (ty : WrappedType)
    (h : Parse toLower pwdPkg pkgs name = some ty) (m : Method) (hm : m ∈ ty.Methods) :
    ∃ s ∈ scannedSelections name pkgs, m = parseMethod toLower pwdPkg s ∧
      m.Params.length = s.Params.length ∧
      (∀ (j : Nat) (p : Param), m.Params[j]? = some p →
        (p.Variadic = true ↔ (j + 1 = s.Params.length ∧ s.Variadic = true))) ∧
      ∀ r ∈ m.Results, r.Variadic = false := by
  obtain ⟨s, hs, _, rfl⟩ := Parse_method_origin h hm
  refine ⟨s, hs, rfl, ?_, ?_, ?_⟩
  · rw [parseMethod_eq]
    exact paramList_length _ _ _ _ _ _ _
  · rw [parseMethod_eq]
    exact paramList_variadic toLower pwdPkg _ _ s.Params 0 [] (by simp)
  · rw [parseMethod_eq]
    exact paramList_not_variadic toLower pwdPkg _ s.Results 0 []

/-- Witness of C8: the method `Write` of `Writer`. -/
theorem parse_variadic_flag_iff_witness :
    ∃ s ∈ scannedSelections "Writer" [storePackage],
      writeMethod = parseMethod Char.toLower "main" s ∧
      writeMethod.Params.length = s.Params.length ∧
      (∀ (j : Nat) (p : Param), writeMethod.Params[j]? = some p →
        (p.Variadic = true ↔ (j + 1 = s.Params.length ∧ s.Variadic = true))) ∧
      ∀ r ∈ writeMethod.Results, r.Variadic = false :=
  parse_variadic_flag_iff Char.toLower "main" [storePackage] "Writer" writerResult
    (by decide) writeMethod (by decide)

/-! ## `variableForType` against its reference definition -/

theorem splitRunes_ne_nil (sep : Char) (l : List Char) : splitRunes sep l ≠ [] := by
  cases l with
  | nil => simp [splitRunes]
  | cons c cs =>
    simp only [splitRunes]
    split
    · simp
    · split <;> simp

theorem splitRunes_of_not_mem (sep : Char) : ∀ l : List Char, sep ∉ l →
    splitRunes sep l = [l] := by
  intro l
  induction l with
  | nil => intro _; rfl
  | cons c cs ih =>
    intro h
    have hc : c ≠ sep := fun e => h (by simp [e])
    have hcs : sep ∉ cs := fun e => h (List.mem_cons_of_mem _ e)
    simp [splitRunes, hc, ih hcs]

theorem splitRunes_length_of_mem (sep : Char) : ∀ l : List Char, sep ∈ l →
    1 < (splitRunes sep l).length := by
  intro l
  induction l with
  | nil => intro h; simp at h
  | cons c cs ih =>
    intro h
    simp only [splitRunes]
    by_cases hc : c = sep
    · rw [if_pos hc]
      have := List.length_pos.2 (splitRunes_ne_nil sep cs)
      simp only [List.length_cons]
      omega
    · rw [if_neg hc]
      have hcs : sep ∈ cs := by
        rcases List.mem_cons.1 h with e | e
        · exact absurd e.symm hc
        · exact e
      have := ih hcs
      split
      · rename_i e; rw [e] at this; simp at this
      · rename_i p ps e
        rw [e] at this
        simpa using this

theorem splitRunes_getLastD : ∀ l : List Char,
    (splitRunes '.' l).getLastD [] = afterLastDot l := by
  intro l
  induction l with
  | nil => rfl
  | cons c cs ih =>
    simp only [splitRunes, afterLastDot]
    by_cases hmem : '.' ∈ cs
    · rw [if_pos hmem]
      have hlen := splitRunes_length_of_mem '.' cs hmem
      by_cases hc : c = '.'
      · rw [if_pos hc, ← ih]
        cases hs : splitRunes '.' cs with
        | nil => exact absurd hs (splitRunes_ne_nil _ _)
        | cons p ps => simp [List.getLastD_cons]
      · rw [if_neg hc, ← ih]
        cases hs : splitRunes '.' cs with
        | nil => exact absurd hs (splitRunes_ne_nil _ _)
        | cons p ps =>
          cases ps with
          | nil => rw [hs] at hlen; simp at hlen
          | cons q qs => simp [List.getLastD_cons]
    · rw [if_neg hmem, splitRunes_of_not_mem '.' cs hmem]
      by_cases hc : c = '.'
      · simp [hc]
      · simp [hc]

theorem stringsSplitDot_length (t : String) :
    (stringsSplitDot t).length > 1 ↔ '.' ∈ t.data := by
  unfold stringsSplitDot
  rw [List.length_map]
  constructor
  · intro h
    by_contra hc
    rw [splitRunes_of_not_mem '.' _ hc] at h
    simp at h
  · exact splitRunes_length_of_mem '.' _

theorem stringsSplitDot_getLastD (t : String) :
    (stringsSplitDot t).getLastD "" = String.mk (afterLastDot t.data) := by
  unfold stringsSplitDot
  rw [← splitRunes_getLastD]
  generalize splitRunes '.' t.data = parts
  induction parts with
  | nil => rfl
  | cons p ps ih =>
    cases ps with
    | nil => rfl
    | cons q qs => simpa [List.getLastD_cons] using ih

theorem afterLastDot_of_not_mem : ∀ l : List Char, '.' ∉ l → afterLastDot l = l := by
  intro l h
  cases l with
  | nil => rfl
  | cons c cs =>
    have hc : c ≠ '.' := fun e => h (by simp [e])
    have hcs : '.' ∉ cs := fun e => h (List.mem_cons_of_mem _ e)
    simp [afterLastDot, hc, hcs]

theorem firstRuneString_lower_cons (toLower : Char → Char) (c : Char) (rest : List Char) :
    firstRuneString (stringsToLower toLower (String.mk (c :: rest))) =
      some (String.singleton (toLower c)) := rfl

/-- Away from the two special type expressions, the candidate is the lower-cased
first rune of the text after the last `.`, when that text is not empty. -/
theorem variableForType_of_afterLastDot (toLower : Char → Char) (t : String) (c : Char)
    (rest : List Char) (h1 : t ≠ "context.Context") (h2 : t ≠ "error")
    (h : afterLastDot t.data = c :: rest) :
    variableForType toLower t = String.singleton (toLower c) := by
  unfold variableForType
  rw [if_neg h1, if_neg h2]
  simp only
  by_cases hmem : '.' ∈ t.data
  · rw [if_pos ((stringsSplitDot_length t).2 hmem), stringsSplitDot_getLastD, h,
      firstRuneString_lower_cons]
  · rw [if_neg (fun hc => hmem ((stringsSplitDot_length t).1 hc))]
    simp only
    have ht : t = String.mk (c :: rest) := by
      apply String.ext
      rw [← h, afterLastDot_of_not_mem _ hmem]
    rw [ht, firstRuneString_lower_cons]

theorem variableForType_empty (toLower : Char → Char) : variableForType toLower "" = "v" :=
  rfl

/-! ## Names synthesized for unnamed `string` parameters -/

theorem toString_nat_no_dot (n : Nat) : '.' ∉ (toString n).data := by
  intro h
  have := toString_nat_isDigit n '.' h
  exact absurd this (by decide)

/-- A name made of `s` and decimal digits has the candidate `s`. -/
theorem variableForType_s_digits (toLower : Char → Char) (hs : toLower 's' = 's') (n : Nat) :
    variableForType toLower ("s" ++ toString n) = "s" := by
  have hdata : ("s" ++ toString n).data = 's' :: (toString n).data := by
    simp [String.data_append]
  have hnd : '.' ∉ ("s" ++ toString n).data := by
    rw [hdata]
    intro h
    rcases List.mem_cons.1 h with e | e
    · exact absurd e (by decide)
    · exact toString_nat_no_dot n e
  have h1 : ("s" ++ toString n) ≠ "context.Context" := by
    intro e
    have := congrArg String.data e
    rw [hdata] at this
    exact absurd (List.cons.inj this).1 (by decide)
  have h2 : ("s" ++ toString n) ≠ "error" := by
    intro e
    have := congrArg String.data e
    rw [hdata] at this
    exact absurd (List.cons.inj this).1 (by decide)
  rw [variableForType_of_afterLastDot toLower _ 's' (toString n).data h1 h2
    (by rw [afterLastDot_of_not_mem _ hnd, hdata]), hs]
  rfl

theorem variableForType_string (toLower : Char → Char) (hs : toLower 's' = 's') :
    variableForType toLower "string" = "s" := by
  rw [variableForType_of_afterLastDot toLower "string" 's' "tring".data (by decide) (by decide)
    (by decide), hs]
  rfl

theorem variableForType_s (toLower : Char → Char) (hs : toLower 's' = 's') :
    variableForType toLower "s" = "s" := by
  rw [variableForType_of_afterLastDot toLower "s" 's' [] (by decide) (by decide) (by decide), hs]
  rfl

/-- The tries of `genName("string", 0, _)` are `s`, `s1`, `s2`, ... -/
theorem genNameTry_string (toLower : Char → Char) (hs : toLower 's' = 's') :
    ∀ k, genNameTry toLower k "string" 0 = stringParamName k := by
  have hcand : ∀ (k : Nat) (t : String) (n : Nat),
      variableForType toLower t = "s" →
      genNameTry toLower (k + 1) t n = "s" ++ toString (n + k + 1) := by
    intro k
    induction k with
    | zero =>
      intro t n ht
      simp only [genNameTry, genNameCandidate]
      by_cases hn : n > 0
      · rw [if_pos hn, ht, if_pos (Nat.succ_pos n), variableForType_s_digits toLower hs]
      · rw [if_neg hn, ht, if_pos (Nat.succ_pos n), variableForType_s toLower hs]
    | succ k ih =>
      intro t n ht
      rw [genNameTry]
      have hc : variableForType toLower (genNameCandidate toLower t n) = "s" := by
        unfold genNameCandidate
        by_cases hn : n > 0
        · rw [if_pos hn, ht, variableForType_s_digits toLower hs]
        · rw [if_neg hn, ht, variableForType_s toLower hs]
      rw [ih _ (n + 1) hc]
      congr 2
      omega
  intro k
  cases k with
  | zero =>
    simp [genNameTry, genNameCandidate, variableForType_string toLower hs, stringParamName]
  | succ k =>
    rw [hcand k "string" 0 (variableForType_string toLower hs)]
    simp [stringParamName]

theorem stringParamName_injective {j k : Nat} (h : stringParamName j = stringParamName k) :
    j = k := by
  unfold stringParamName at h
  have hlen : ∀ n : Nat, ("s" ++ toString n) ≠ "s" := by
    intro n e
    have := congrArg String.data e
    simp only [String.data_append] at this
    have h1 : (toString n).data = [] := by simpa using this
    exact toString_nat_ne_nil n h1
  by_cases hj : j = 0 <;> by_cases hk : k = 0
  · omega
  · rw [if_pos hj, if_neg hk] at h
    exact absurd h.symm (hlen k)
  · rw [if_neg hj, if_pos hk] at h
    exact absurd h (hlen j)
  · rw [if_neg hj, if_neg hk] at h
    have := congrArg String.data h
    simp only [String.data_append] at this
    exact toString_nat_injective (String.ext (List.append_cancel_left this))

/-- With exactly the names `s`, `s1`, ..., `s(k-1)` used, `genName` on `string`
returns the next one. -/
theorem genName_string (toLower : Char → Char) (hs : toLower 's' = 's') (k : Nat)
    (usedNames : List String) (hlen : usedNames.length = k)
    (hused : ∀ x, x ∈ usedNames ↔ ∃ j, j < k ∧ x = stringParamName j) :
    genName toLower "string" 0 usedNames = stringParamName k := by
  have hfuel := genNameFuel_eq_try toLower usedNames k (usedNames.length + 2) "string" 0
    (by omega)
    (by
      intro j hj
      rw [genNameTry_string toLower hs]
      exact (hused _).2 ⟨j, hj, rfl⟩)
    (by
      rw [genNameTry_string toLower hs]
      intro hmem
      obtain ⟨j, hj, e⟩ := (hused _).1 hmem
      have := stringParamName_injective e
      omega)
  unfold genName
  rw [hfuel, genNameTry_string toLower hs]
  rfl

/-- The parameters built from `n` unnamed variables of rendered type `string`,
after the names `s`, ..., `s(k-1)`, are named `sk`, ..., `s(k+n-1)`. -/
theorem paramList_string_names (toLower : Char → Char) (hs : toLower 's' = 's')
    (pwdPkg : String) (len : Nat) (variadic : Bool) :
    ∀ (vs : List Var) (i k : Nat) (usedNames : List String),
      (∀ v ∈ vs, v.Name = "" ∧ typeName pwdPkg v.Typ = "string") →
      usedNames.length = k →
      (∀ x, x ∈ usedNames ↔ ∃ j, j < k ∧ x = stringParamName j) →
      (paramList toLower pwdPkg len variadic i vs usedNames).map Param.Name =
        (List.range vs.length).map (fun j => stringParamName (k + j)) := by
  intro vs
  induction vs with
  | nil => intro i k u _ _ _; rfl
  | cons v vs ih =>
    intro i k u hv hlen hused
    have hv0 := hv v (List.mem_cons_self _ _)
    have hname : (newParam toLower pwdPkg v u).1.Name = stringParamName k := by
      rw [newParam_name, if_pos hv0.1, hv0.2]
      exact genName_string toLower hs k u hlen hused
    simp only [paramList, List.map_cons, markVariadic_name, List.length_cons]
    rw [hname, ih (i + 1) (k + 1) (stringParamName k :: u)
      (fun w hw => hv w (List.mem_cons_of_mem _ hw)) (by simp [hlen])]
    · rw [List.range_succ_eq_map]
      simp only [List.map_cons, List.map_map, Nat.add_zero, List.cons.injEq, true_and]
      apply List.map_congr_left
      intro j _
      simp only [Function.comp]
      congr 1
      omega
    · intro x
      simp only [List.mem_cons, hused]
      constructor
      · rintro (rfl | ⟨j, hj, rfl⟩)
        · exact ⟨k, by omega, rfl⟩
        · exact ⟨j, by omega, rfl⟩
      · rintro ⟨j, hj, rfl⟩
        by_cases hjk : j = k
        · left; rw [hjk]
        · right; exact ⟨j, by omega, rfl⟩

/-! ## The order of the methods for a type declared once -/

theorem scannedSelections_append (name : String) (a b : List LoadedPackage) :
    scannedSelections name (a ++ b) = scannedSelections name a ++ scannedSelections name b := by
  induction a with
  | nil => rfl
  | cons p a ih =>
    show scannedSelections name (p :: (a ++ b)) = _
    cases hl : p.Lookup name <;> simp [scannedSelections, hl, ih, List.append_assoc]

/-- For a name declared by exactly one loaded package, `Parse` visits the value
form method set of that declaration and then the pointer form one. -/
theorem scannedSelections_declared_once (name : String) (pre post : List LoadedPackage)
    (pkg : LoadedPackage) (l : Object) (hpkg : pkg.Lookup name = some l)
    (hpre : ∀ p ∈ pre, p.Lookup name = none) (hpost : ∀ p ∈ post, p.Lookup name = none) :
    scannedSelections name (pre ++ pkg :: post) = l.ValueMethods ++ l.PointerMethods := by
  rw [scannedSelections_append, scannedSelections_undeclared name pre hpre]
  simp only [scannedSelections, hpkg, scannedSelections_undeclared name post hpost]
  simp

/-- When no name repeats in a method set, the entries kept are those that are
not private and not recorded before. -/
theorem keptSelections_eq_filter : ∀ (sels : List Selection) (methodCheck : List String),
    (sels.map Selection.Name).Nodup →
    keptSelections methodCheck sels =
      sels.filter (fun s =>
        decide (¬ isPrivate s.Name = some true) && decide (s.Name ∉ methodCheck)) := by
  intro sels
  induction sels with
  | nil => intro mc _; rfl
  | cons x sels ih =>
    intro mc hnd
    simp only [List.map_cons, List.nodup_cons] at hnd
    simp only [keptSelections]
    by_cases hskip : isPrivate x.Name = some true ∨ x.Name ∈ mc
    · rw [if_pos hskip, ih mc hnd.2]
      have : (decide (¬ isPrivate x.Name = some true) && decide (x.Name ∉ mc)) = false := by
        rcases hskip with h | h <;> simp [h]
      rw [List.filter_cons, if_neg (by rw [this]; exact Bool.false_ne_true)]
    · rw [if_neg hskip, ih _ hnd.2]
      push_neg at hskip
      have : (decide (¬ isPrivate x.Name = some true) && decide (x.Name ∉ mc)) = true := by
        simp [hskip.1, hskip.2]
      rw [List.filter_cons, if_pos this]
      congr 1
      apply List.filter_congr
      intro s hs
      have hne : s.Name ≠ x.Name := by
        intro e
        exact hnd.1 (by rw [← e]; exact List.mem_map_of_mem _ hs)
      simp [hne]

theorem mem_checkAfter : ∀ (sels : List Selection) (methodCheck : List String) (x : String),
    x ∈ checkAfter methodCheck sels ↔
      x ∈ methodCheck ∨ x ∈ (keptSelections methodCheck sels).map Selection.Name := by
  intro sels
  induction sels with
  | nil => intro mc x; simp [checkAfter, keptSelections]
  | cons s sels ih =>
    intro mc x
    simp only [checkAfter, keptSelections]
    split
    · exact ih mc x
    · rw [ih]
      simp only [List.mem_cons, List.map_cons]
      constructor
      · rintro ((h | h) | h)
        · exact Or.inr (Or.inl h)
        · exact Or.inl h
        · exact Or.inr (Or.inr h)
      · rintro (h | h | h)
        · exact Or.inl (Or.inr h)
        · exact Or.inl (Or.inl h)
        · exact Or.inr h

/-- The methods of a type declared by exactly one loaded package: the entries of
the value form method set that pass `isPrivate`, then the entries of the
pointer form method set that pass it and whose names are not in the value form
set, each in the order of its set. -/
theorem Parse_methods_declared_once {toLower : Char → Char} {pwdPkg : String}
    {name : String} {ty : WrappedType} (pre post : List LoadedPackage) (pkg : LoadedPackage)
    (l : Object) (h : Parse toLower pwdPkg (pre ++ pkg :: post) name = some ty)
    (hpkg : pkg.Lookup name = some l)
    (hpre : ∀ p ∈ pre, p.Lookup name = none) (hpost : ∀ p ∈ post, p.Lookup name = none)
    (hV : (l.ValueMethods.map Selection.Name).Nodup)
    (hP : (l.PointerMethods.map Selection.Name).Nodup) :
    keptSelections [] (scannedSelections name (pre ++ pkg :: post)) =
      l.ValueMethods.filter (fun s => isPrivate s.Name == some false) ++
      l.PointerMethods.filter (fun s =>
        isPrivate s.Name == some false &&
          decide (s.Name ∉ l.ValueMethods.map Selection.Name)) := by
  have hsc := scannedSelections_declared_once name pre post pkg l hpkg hpre hpost
  have hne : ∀ s ∈ l.ValueMethods ++ l.PointerMethods, s.Name ≠ "" := by
    rw [← hsc]
    by_contra hc
    rw [Parse_eq, if_neg hc] at h
    exact Option.noConfusion h
  have hpriv : ∀ s ∈ l.ValueMethods ++ l.PointerMethods,
      (decide (¬ isPrivate s.Name = some true)) = (isPrivate s.Name == some false) := by
    intro s hs
    have h0 : isPrivate s.Name ≠ none := fun e => hne s hs (isPrivate_eq_none.1 e)
    cases hp : isPrivate s.Name with
    | none => exact absurd hp h0
    | some b => cases b <;> simp
  rw [hsc, keptSelections_append, keptSelections_eq_filter _ _ hV,
    keptSelections_eq_filter _ _ hP]
  congr 1
  · apply List.filter_congr
    intro s hs
    rw [hpriv s (List.mem_append_left _ hs)]
    simp
  · apply List.filter_congr
    intro s hs
    rw [hpriv s (List.mem_append_right _ hs)]
    cases hp : (isPrivate s.Name == some false) with
    | false => simp
    | true =>
      simp only [Bool.true_and, decide_eq_decide]
      rw [mem_checkAfter, keptSelections_eq_filter _ _ hV]
      simp only [List.not_mem_nil, false_or, List.mem_map, List.mem_filter, Bool.and_eq_true,
        decide_eq_true_eq, not_false_eq_true, and_true]
      constructor
      · intro hn hm
        obtain ⟨v, hv, hname⟩ := hm
        apply hn
        refine ⟨v, ⟨hv, ?_⟩, hname⟩
        rw [hname]
        intro e
        rw [e] at hp
        exact absurd hp (by decide)
      · intro hn hm
        obtain ⟨v, ⟨hv, _⟩, hname⟩ := hm
        exact hn ⟨v, hv, hname⟩

/-! ## Named variables keep their names -/

theorem paramList_getElem (toLower : Char → Char) (pwdPkg : String) (len : Nat)
    (variadic : Bool) :
    ∀ (vs : List Var) (i : Nat) (usedNames : List String) (j : Nat) (p : Param) (v : Var),
      (paramList toLower pwdPkg len variadic i vs usedNames)[j]? = some p →
      vs[j]? = some v →
      p.Typ = typeName pwdPkg v.Typ ∧ (v.Name ≠ "" → p.Name = v.Name) := by
  intro vs
  induction vs with
  | nil => intro i u j p v hp; simp [paramList] at hp
  | cons w vs ih =>
    intro i u j p v hp hv
    cases j with
    | zero =>
      simp only [paramList, List.getElem?_cons_zero, Option.some.injEq] at hp hv
      subst hp; subst hv
      refine ⟨by rw [markVariadic_typ, newParam_typ], ?_⟩
      intro hn
      rw [markVariadic_name, newParam_name, if_neg hn]
    | succ j =>
      simp only [paramList, List.getElem?_cons_succ] at hp hv
      exact ih _ _ j p v hp hv

/-! ## `strings.Replace` on a rendered parameter -/

theorem startsWith_brackets_append (l tail : List Char)
    (h : startsWith ['[', ']'] l = false) (hl : l ≠ []) :
    startsWith ['[', ']'] (l ++ ' ' :: tail) = false := by
  cases l with
  | nil => exact absurd rfl hl
  | cons a l =>
    cases l with
    | nil =>
      simp only [List.cons_append, List.nil_append, startsWith]
      simp
    | cons b l =>
      simp only [List.cons_append, startsWith] at h ⊢
      exact h

/-- In `name type`, with no `[]` in the name, the first `[]` is the first one of
the type. -/
theorem replaceFirst_after_name (new : List Char) : ∀ (nm ty : List Char),
    containsRunes ['[', ']'] nm = false →
    replaceFirst ['[', ']'] new (nm ++ ' ' :: ty) =
      nm ++ ' ' :: replaceFirst ['[', ']'] new ty := by
  intro nm
  induction nm with
  | nil =>
    intro ty _
    simp [replaceFirst, startsWith]
  | cons c cs ih =>
    intro ty h
    simp only [containsRunes, Bool.or_eq_false_iff] at h
    have h1 := startsWith_brackets_append (c :: cs) ty h.1 (by simp)
    simp only [List.cons_append] at h1 ⊢
    rw [replaceFirst, if_neg (by simp [h1]), ih ty h.2]

theorem replaceFirst_of_not_contains (new : List Char) : ∀ l : List Char,
    containsRunes ['[', ']'] l = false → replaceFirst ['[', ']'] new l = l := by
  intro l
  induction l with
  | nil => intro _; simp [replaceFirst, startsWith]
  | cons c cs ih =>
    intro h
    simp only [containsRunes, Bool.or_eq_false_iff] at h
    rw [replaceFirst, if_neg (by simp [h.1]), ih h.2]

/-- The parameter string `Signature` builds agrees with the rendering of the
specification when the name holds no `[]` and the type of a variadic parameter
starts with `[]` or holds no `[]`. -/
theorem signature_param_eq (p : Param)
    (hname : containsRunes "[]".data p.Name.data = false)
    (htyp : p.Variadic = true →
      startsWith "[]".data p.Typ.data = true ∨ containsRunes "[]".data p.Typ.data = false) :
    (if p.Variadic = true then stringsReplaceFirst (p.Name ++ " " ++ p.Typ) "[]" "..."
      else p.Name ++ " " ++ p.Typ) = signatureParamSpec p := by
  unfold signatureParamSpec
  by_cases hv : p.Variadic = true
  · rw [if_pos hv, if_pos hv]
    have hrep : stringsReplaceFirst (p.Name ++ " " ++ p.Typ) "[]" "..." =
        String.mk (p.Name.data ++ ' ' :: replaceFirst "[]".data "...".data p.Typ.data) := by
      unfold stringsReplaceFirst
      congr 1
      have : (p.Name ++ " " ++ p.Typ).data = p.Name.data ++ ' ' :: p.Typ.data := by
        simp [String.data_append]
      rw [this]
      exact replaceFirst_after_name _ _ _ hname
    rw [hrep]
    rcases htyp hv with h | h
    · cases hd : p.Typ.data with
      | nil => rw [hd] at h; simp [startsWith] at h
      | cons a l =>
        cases l with
        | nil => rw [hd] at h; simp [startsWith] at h
        | cons b l =>
          rw [hd] at h
          simp only [startsWith, Bool.and_eq_true, beq_iff_eq, and_true] at h
          obtain ⟨ha, hb⟩ := h
          subst ha; subst hb
          apply String.ext
          simp [replaceFirst, startsWith, String.data_append]
    · rw [replaceFirst_of_not_contains _ _ h]
      have hns : startsWith "[]".data p.Typ.data = false := by
        cases hd : p.Typ.data with
        | nil => rfl
        | cons a l =>
          rw [hd] at h
          simp only [containsRunes, Bool.or_eq_false_iff] at h
          exact h.1
      have : (String.mk (p.Name.data ++ ' ' :: p.Typ.data)) = p.Name ++ " " ++ p.Typ := by
        apply String.ext
        simp [String.data_append]
      rw [this]
      split
      · rename_i e hd
        rw [hd] at hns
        simp [startsWith] at hns
      · rfl
  · rw [if_neg hv, if_neg hv]

/-! ## Synthesized names (C11, C12) -/

/-- C11: a method whose n parameters are all unnamed and all of rendered type
`string` resolves to the parameter names `s`, `s1`, ..., `s(n-1)` in that
order (`unicode.ToLower` leaving `s` unchanged). -/
theorem parse_unnamed_string_params (toLower : Char → Char) (hlow : toLower 's' = 's')
    (pwdPkg : String) (pkgs : List LoadedPackage) (name : String) (ty : WrappedType)
    (h : Parse toLower pwdPkg pkgs name = some ty) (s : Selection)
    (hs : s ∈ keptSelections [] (scannedSelections name pkgs))
    (hall : ∀ v ∈ s.Params, v.Name = "" ∧ typeName pwdPkg v.Typ = "string") :
    parseMethod toLower pwdPkg s ∈ ty.Methods ∧
    (parseMethod toLower pwdPkg s).Params.map Param.Name =
      (List.range s.Params.length).map stringParamName := by
  refine ⟨?_, ?_⟩
  · rw [Parse_methods h]
    exact List.mem_map_of_mem _ hs
  · rw [parseMethod_eq]
    simp only
    rw [paramList_string_names toLower hlow pwdPkg _ _ s.Params 0 0 [] hall rfl (by simp)]
    simp

/-- Witness of C11: `Pair(string, string)` resolves to `s`, `s1`. -/
theorem parse_unnamed_string_params_witness :
    (parseMethod Char.toLower "main" pairSelection ∈ sinkResult.Methods ∧
      (parseMethod Char.toLower "main" pairSelection).Params.map Param.Name =
        (List.range pairSelection.Params.length).map stringParamName) ∧
    (List.range pairSelection.Params.length).map stringParamName = ["s", "s1"] :=
  ⟨parse_unnamed_string_params Char.toLower (by decide) "main" [storePackage] "Sink" sinkResult
    (by decide) pairSelection (List.Mem.head _) (by decide), by decide⟩

/-- C12: `variableForType` agrees with the reference definition wherever that
one is defined: `ctx` for `context.Context`, `err` for `error`, `v` for the
empty type expression, and for every other type expression whose text after
the last `.` is non-empty the one-rune string of the lower-cased first rune of
that text. -/
theorem variableForType_refines_spec (toLower : Char → Char) (t r : String)
    (h : variableForTypeSpec toLower t = some r) : variableForType toLower t = r := by
  unfold variableForTypeSpec at h
  by_cases h1 : t = "context.Context"
  · rw [if_pos h1] at h
    rw [h1, ← Option.some.inj h]
    rfl
  · rw [if_neg h1] at h
    by_cases h2 : t = "error"
    · rw [if_pos h2] at h
      rw [h2, ← Option.some.inj h]
      rfl
    · rw [if_neg h2] at h
      by_cases h3 : t = ""
      · rw [if_pos h3] at h
        rw [h3, ← Option.some.inj h]
        rfl
      · rw [if_neg h3] at h
        cases hd : afterLastDot t.data with
        | nil => rw [hd] at h; exact Option.noConfusion h
        | cons c rest =>
          rw [hd] at h
          rw [variableForType_of_afterLastDot toLower t c rest h1 h2 hd]
          exact Option.some.inj h

/-- Witness of C12: the qualified type expression `io.Reader` yields `r`. -/
theorem variableForType_refines_spec_witness :
    variableForType Char.toLower "io.Reader" = "r" :=
  variableForType_refines_spec Char.toLower "io.Reader" "r" (by decide)

/-! ## Source package and method order (C13, C14, C20) -/

/-- C13 at its failing inputs: with `Store` declared by the first package only,
Pkg is the name of the package loaded last (`util`); with `Store` declared by
`store` as an interface and by `shadow` as a concrete type, Pkg and
IsInterface are those of the last package, in both orders. -/
theorem parse_pkg_of_last_package :
    (Parse Char.toLower "main" [storePackage, utilPackage] "Store").map
        (fun t => (t.Pkg, t.IsInterface)) = some ("util", true) ∧
    (Parse Char.toLower "main" [storePackage, shadowPackage] "Store").map
        (fun t => (t.Pkg, t.IsInterface)) = some ("shadow", false) ∧
    (Parse Char.toLower "main" [shadowPackage, storePackage] "Store").map
        (fun t => (t.Pkg, t.IsInterface)) = some ("store", true) ∧
    (storePackage.Lookup "Store").map (fun l => IsInterface l.Typ) = some true ∧
    (utilPackage.Lookup "Store").isNone = true := by
  decide

/-- C14, as stated, fails: for `Gauge`, whose value form method set `Size` is
contained in the pointer form method set `Add`, `Size`, the Methods are named
`Size`, `Add`, not `Add`, `Size`. -/
theorem parse_gauge_order :
    Parse Char.toLower "main" [metricsPackage] "Gauge" = some gaugeResult ∧
    gaugeResult.Methods.map Method.Name = ["Size", "Add"] ∧
    gaugeObject.PointerMethods.map Selection.Name = ["Add", "Size"] ∧
    gaugeObject.ValueMethods.map Selection.Name = ["Size"] ∧
    (gaugeObject.PointerMethods.map Selection.Name).all
      (fun n => isPrivate n == some false) = true := by
  decide

/-- C14, amended: for a type declared in exactly one loaded package whose value
form method set is contained in its pointer form method set (no name repeating
within a set), the names of the Methods are exactly the names of the pointer
form method set that pass the name filter, each once, ordered with the methods
of the value form set first, in that set's order, followed by the remaining
methods of the pointer form set in that set's order. -/
theorem parse_method_names_value_first (toLower : Char → Char) (pwdPkg : String)
    (name : String) (ty : WrappedType) (pre post : List LoadedPackage) (pkg : LoadedPackage)
    (l : Object) (h : Parse toLower pwdPkg (pre ++ pkg :: post) name = some ty)
    (hpkg : pkg.Lookup name = some l)
    (hpre : ∀ p ∈ pre, p.Lookup name = none) (hpost : ∀ p ∈ post, p.Lookup name = none)
    (hV : (l.ValueMethods.map Selection.Name).Nodup)
    (hP : (l.PointerMethods.map Selection.Name).Nodup)
    (hsub : ∀ s ∈ l.ValueMethods, s.Name ∈ l.PointerMethods.map Selection.Name) :
    ty.Methods.map Method.Name =
      (l.ValueMethods.filter (fun s => isPrivate s.Name == some false)).map Selection.Name ++
      (l.PointerMethods.filter (fun s =>
        isPrivate s.Name == some false &&
          decide (s.Name ∉ l.ValueMethods.map Selection.Name))).map Selection.Name ∧
    (ty.Methods.map Method.Name).Perm
      ((l.PointerMethods.filter (fun s => isPrivate s.Name == some false)).map
        Selection.Name) := by
  have hk := Parse_methods_declared_once pre post pkg l h hpkg hpre hpost hV hP
  have hnames := Parse_method_names h
  rw [hk, List.map_append] at hnames
  refine ⟨hnames, ?_⟩
  have hnd1 : (ty.Methods.map Method.Name).Nodup := by
    rw [Parse_method_names h]
    exact keptSelections_nodup _ _
  have hnd2 : ((l.PointerMethods.filter
      (fun s => isPrivate s.Name == some false)).map Selection.Name).Nodup :=
    List.Nodup.sublist (List.Sublist.map _ (List.filter_sublist _)) hP
  rw [List.perm_ext_iff_of_nodup hnd1 hnd2]
  intro x
  rw [hnames]
  simp only [List.mem_append, List.mem_map, List.mem_filter, Bool.and_eq_true, beq_iff_eq,
    decide_eq_true_eq]
  constructor
  · rintro (⟨s, ⟨hs, hp⟩, rfl⟩ | ⟨s, ⟨hs, hp, _⟩, rfl⟩)
    · obtain ⟨s2, hs2, hname⟩ := List.mem_map.1 (hsub s hs)
      exact ⟨s2, ⟨hs2, by rw [hname]; exact hp⟩, hname⟩
    · exact ⟨s, ⟨hs, hp⟩, rfl⟩
  · rintro ⟨s, ⟨hs, hp⟩, rfl⟩
    by_cases hv : s.Name ∈ l.ValueMethods.map Selection.Name
    · left
      obtain ⟨v, hv1, hname⟩ := List.mem_map.1 hv
      exact ⟨v, ⟨hv1, by rw [hname]; exact hp⟩, hname⟩
    · right
      exact ⟨s, ⟨hs, hp, fun ⟨a, ha, hna⟩ => hv (List.mem_map.2 ⟨a, ha, hna⟩)⟩, rfl⟩

/-- Witness of C14 amended: the type `Gauge` of the package `metrics`. -/
theorem parse_method_names_value_first_witness :
    gaugeResult.Methods.map Method.Name =
      (gaugeObject.ValueMethods.filter
        (fun s => isPrivate s.Name == some false)).map Selection.Name ++
      (gaugeObject.PointerMethods.filter (fun s =>
        isPrivate s.Name == some false &&
          decide (s.Name ∉ gaugeObject.ValueMethods.map Selection.Name))).map
        Selection.Name ∧
    (gaugeResult.Methods.map Method.Name).Perm
      ((gaugeObject.PointerMethods.filter (fun s => isPrivate s.Name == some false)).map
        Selection.Name) :=
  parse_method_names_value_first Char.toLower "main" "Gauge" gaugeResult [] [] metricsPackage
    gaugeObject (by decide) rfl (fun p hp => absurd hp (List.not_mem_nil p))
    (fun p hp => absurd hp (List.not_mem_nil p)) (by decide) (by decide) (by decide)

/-- C20: for a type declared in exactly one loaded package, method names being
unique within each method set, the Methods returned by Parse are, in order, the
methods built from the entries of the value form method set that pass the name
filter, in that set's order, followed by those built from the entries of the
pointer form method set that pass the filter and whose names are not in the
value form set, in the pointer form set's order. -/
theorem parse_methods_value_then_pointer (toLower : Char → Char) (pwdPkg : String)
    (name : String) (ty : WrappedType) (pre post : List LoadedPackage) (pkg : LoadedPackage)
    (l : Object) (h : Parse toLower pwdPkg (pre ++ pkg :: post) name = some ty)
    (hpkg : pkg.Lookup name = some l)
    (hpre : ∀ p ∈ pre, p.Lookup name = none) (hpost : ∀ p ∈ post, p.Lookup name = none)
    (hV : (l.ValueMethods.map Selection.Name).Nodup)
    (hP : (l.PointerMethods.map Selection.Name).Nodup) :
    ty.Methods =
      (l.ValueMethods.filter (fun s => isPrivate s.Name == some false)).map
        (parseMethod toLower pwdPkg) ++
      (l.PointerMethods.filter (fun s =>
        isPrivate s.Name == some false &&
          decide (s.Name ∉ l.ValueMethods.map Selection.Name))).map
        (parseMethod toLower pwdPkg) := by
  rw [Parse_methods h, Parse_methods_declared_once pre post pkg l h hpkg hpre hpost hV hP,
    List.map_append]

/-- Witness of C20: `Counter`, declared by `store` alone among the loaded
packages `util` and `store`; `Get` comes from the value form set and `Inc` from
the pointer form set. -/
theorem parse_methods_value_then_pointer_witness :
    counterResult.Methods =
      (counterObject.ValueMethods.filter (fun s => isPrivate s.Name == some false)).map
        (parseMethod Char.toLower "main") ++
      (counterObject.PointerMethods.filter (fun s =>
        isPrivate s.Name == some false &&
          decide (s.Name ∉ counterObject.ValueMethods.map Selection.Name))).map
        (parseMethod Char.toLower "main") :=
  parse_methods_value_then_pointer Char.toLower "main" "Counter" counterResult [utilPackage] []
    storePackage counterObject (by decide) rfl
    (fun p hp => by rw [List.mem_singleton.1 hp]; rfl)
    (fun p hp => absurd hp (List.not_mem_nil p)) (by decide) (by decide)

/-! ## End to end (C15) -/

/-- C15: for the package `io` declaring the interface `Reader` with the single
method `Read(p []byte) (n int, err error)`, Parse returns IsInterface true and
one Method `Read` with the Param `p` of type `[]byte`, not variadic, the
Results `n int` and `err error`, ReturnsError true and AcceptsContext false;
and for every Method produced by Parse, built from the entry `s`, the Params
and Results correspond in count and order to the variables of the raw
signature, each with the rendered type of its variable and, when the variable
is explicitly named, with its name. -/
theorem parse_reader_end_to_end :
    Parse Char.toLower "main" [ioPackage] "Reader" = some readerResult ∧
    ∀ (toLower : Char → Char) (pwdPkg : String) (pkgs : List LoadedPackage) (name : String)
      (ty : WrappedType), Parse toLower pwdPkg pkgs name = some ty →
      ∀ m ∈ ty.Methods, ∃ s ∈ scannedSelections name pkgs, m = parseMethod toLower pwdPkg s ∧
        m.Name = s.Name ∧
        m.Params.length = s.Params.length ∧ m.Results.length = s.Results.length ∧
        (∀ (j : Nat) (p : Param) (v : Var), m.Params[j]? = some p → s.Params[j]? = some v →
          p.Typ = typeName pwdPkg v.Typ ∧ (v.Name ≠ "" → p.Name = v.Name)) ∧
        (∀ (j : Nat) (p : Param) (v : Var), m.Results[j]? = some p → s.Results[j]? = some v →
          p.Typ = typeName pwdPkg v.Typ ∧ (v.Name ≠ "" → p.Name = v.Name)) := by
  refine ⟨by decide, ?_⟩
  intro toLower pwdPkg pkgs name ty h m hm
  obtain ⟨s, hs, _, rfl⟩ := Parse_method_origin h hm
  refine ⟨s, hs, rfl, ?_, ?_, ?_, ?_, ?_⟩
  · rw [parseMethod_eq]
  · rw [parseMethod_eq]; exact paramList_length _ _ _ _ _ _ _
  · rw [parseMethod_eq]; exact paramList_length _ _ _ _ _ _ _
  · rw [parseMethod_eq]; exact paramList_getElem toLower pwdPkg _ _ s.Params 0 []
  · rw [parseMethod_eq]; exact paramList_getElem toLower pwdPkg _ _ s.Results 0 []

/-! ## Rendering (C16, C17, C18, C19) -/

/-- C16 at its failing input: for the name `École`, whose first rune `É` takes
two bytes, `Camelize` and `camelize` return the lower-cased first rune followed
by the second byte `0x89` of `É` and then `cole`; the name with its first rune
lower-cased has no such byte. For `Reader` the result is `reader`. -/
theorem camelize_multibyte_first_rune (toLower : Char → Char) :
    WrappedType.Camelize toLower
        { Typ := "École", PwdPkg := "", Pkg := "", Methods := [], IsInterface := false } =
      utf8Encode (toLower 'É') ++ [0x89, 0x63, 0x6F, 0x6C, 0x65] ∧
    camelize toLower "École" = utf8Encode (toLower 'É') ++ [0x89, 0x63, 0x6F, 0x6C, 0x65] ∧
    utf8Bytes (String.mk (toLower 'É' :: "cole".data)) =
      utf8Encode (toLower 'É') ++ [0x63, 0x6F, 0x6C, 0x65] ∧
    utf8Encode 'É' = [0xC3, 0x89] ∧
    camelize Char.toLower "Reader" = utf8Bytes "reader" ∧
    camelize toLower "" = utf8Bytes "" := by
  refine ⟨rfl, rfl, rfl, by decide, by decide, rfl⟩

/-- C17, as stated, fails: for the Method with the single variadic parameter
`m` of Type `map[string][]int`, whose name holds no `[]` and whose Type is not
in slice form, `Signature()` is `(m map[string]...int) ()`, while rendering the
parameter as `name type` gives `(m map[string][]int) ()`. -/
theorem signature_variadic_map_type :
    mapVariadicMethod.Params.all
      (fun p => !(containsRunes "[]".data p.Name.data)) = true ∧
    mapVariadicMethod.Params.all (fun p => !(startsWith "[]".data p.Typ.data)) = true ∧
    mapVariadicMethod.Signature = "(m map[string]...int) ()" ∧
    "(" ++ stringsJoin (mapVariadicMethod.Params.map signatureParamSpec) ", " ++ ") (" ++
        stringsJoin (mapVariadicMethod.Results.map Param.Typ) ", " ++ ")" =
      "(m map[string][]int) ()" ∧
    mapVariadicMethod.Signature ≠ "(m map[string][]int) ()" := by
  decide

/-- C17, amended: for every Method whose parameter names do not contain `[]`
and whose variadic parameters have a Type that is in the slice form `[]E` or
holds no `[]`, `Signature()` is `(P) (R)` with P the join of the parameters
rendered `name type`, `name ...E` for a variadic parameter of type `[]E`, and R
the join of the result Types; `Declaration()` is the Name followed by
`Signature()`. -/
theorem signature_eq_spec (m : Method)
    (hnames : ∀ p ∈ m.Params, containsRunes "[]".data p.Name.data = false)
    (htyps : ∀ p ∈ m.Params, p.Variadic = true →
      startsWith "[]".data p.Typ.data = true ∨ containsRunes "[]".data p.Typ.data = false) :
    m.Signature =
      "(" ++ stringsJoin (m.Params.map signatureParamSpec) ", " ++ ") (" ++
        stringsJoin (m.Results.map Param.Typ) ", " ++ ")" ∧
    m.Declaration =
      m.Name ++ ("(" ++ stringsJoin (m.Params.map signatureParamSpec) ", " ++ ") (" ++
        stringsJoin (m.Results.map Param.Typ) ", " ++ ")") := by
  have hmap : m.Params.map (fun p =>
      if p.Variadic = true then stringsReplaceFirst (p.Name ++ " " ++ p.Typ) "[]" "..."
      else p.Name ++ " " ++ p.Typ) = m.Params.map signatureParamSpec := by
    apply List.map_congr_left
    intro p hp
    exact signature_param_eq p (hnames p hp) (htyps p hp)
  have hsig : m.Signature =
      "(" ++ stringsJoin (m.Params.map signatureParamSpec) ", " ++ ") (" ++
        stringsJoin (m.Results.map Param.Typ) ", " ++ ")" := by
    unfold Method.Signature
    simp only
    rw [hmap]
  exact ⟨hsig, by unfold Method.Declaration; rw [hsig]⟩

/-- Witness of C17 amended: `Write(parts ...string) (int, error)`. -/
theorem signature_eq_spec_witness :
    (writeMethod.Signature =
      "(" ++ stringsJoin (writeMethod.Params.map signatureParamSpec) ", " ++ ") (" ++
        stringsJoin (writeMethod.Results.map Param.Typ) ", " ++ ")" ∧
    writeMethod.Declaration =
      writeMethod.Name ++
        ("(" ++ stringsJoin (writeMethod.Params.map signatureParamSpec) ", " ++ ") (" ++
          stringsJoin (writeMethod.Results.map Param.Typ) ", " ++ ")")) ∧
    writeMethod.Signature = "(parts ...string) (int, error)" ∧
    writeMethod.Declaration = "Write(parts ...string) (int, error)" ∧
    fetchMethod.Signature = "(ctx context.Context, id string) (store.Item, error)" :=
  ⟨signature_eq_spec writeMethod (by decide) (by decide), by decide, by decide, by decide⟩

/-- C18 at its failing input: for `Apply(fs ...func(...int))` Parse stores the
Type `[]func(...int)` with Variadic true, and `ParamsStruct()` gives the field
the type `[]func([]int)`, not the Param's Type: the first `...` of the Type is
replaced by `[]`. -/
theorem paramsStruct_variadic_func :
    (Parse Char.toLower "main" [metricsPackage] "Applier").map (fun t => t.Methods) =
      some [applyMethod] ∧
    applyMethod.Params = [⟨"fs", "[]func(...int)", true⟩] ∧
    applyMethod.ParamsStruct = "struct\x7b\nfs []func([]int)\x7d" ∧
    applyMethod.ParamsStruct ≠ "struct\x7b\nfs []func(...int)\x7d" ∧
    writeMethod.ParamsStruct = "struct\x7b\nparts []string\x7d" := by
  decide

/-- C19 at its failing input: the name synthesized for the unnamed parameter of
`Write([]byte) (int, error)` is `[`, and the one for the type expression `*T`
is `*`; neither begins with a letter. -/
theorem genName_slice_pointer_not_letter :
    (Parse Char.toLower "main" [ioPackage] "Writer").map
        (fun t => t.Methods.map (fun m => m.Params)) =
      some [[⟨"[", "[]byte", false⟩]] ∧
    genName Char.toLower "[]byte" 0 [] = "[" ∧
    genName Char.toLower "*T" 0 [] = "*" ∧
    genName Char.toLower "[]pkg.T" 0 [] = "t" ∧
    ('['.isAlpha || '*'.isAlpha) = false := by
  decide

end Wrap
